import Mathlib

/-!
# Held-Karp travelling-salesman solver (`TSP.cpp`)

A shallow embedding of `TSP.cpp` and the properties of its natural-language
specification.

Conventions of the embedding.

* A C++ `int` is an `Int`; the one arithmetic operation that can leave the
  32-bit range, the addition on line 110, is wrapped explicitly by `wrap32`.
* A `std::vector<std::vector<int>>` is a `List (List Int)`.  Every indexed
  access is bounds-checked: an access outside the vector makes the embedded
  function return `Err.outOfBounds` (in C++ it is undefined behaviour).
* A visited-set mask is a `Nat`; for `numCities ≤ 30` the C++ expressions
  `1 << city`, `mask | (1 << city)` and `(1 << numCities) - 1` stay inside the
  non-negative `int` range, where they agree with the `Nat` operations.
* The recursion carries a fuel argument; running out of it is `Err.outOfFuel`.
* `tsp` additionally returns the list of events (recursive calls, additions,
  memo stores) of the run.  The log is ghost state: no branch reads it.
-/

namespace TSP

/-! ## Data model -/

/-- Line 10: `INF = std::numeric_limits<int>::max()`. -/
def INF : Int := 2147483647

/-- Line 11: `MAX_CITIES = 25`. -/
def MAX_CITIES : Int := 25

/-- A `std::vector<std::vector<int>>`. -/
abbrev Matrix := List (List Int)

/-- Bounds-checked read `m[i][j]`. -/
def get2 (m : Matrix) (i j : Nat) : Option Int :=
  match m[i]? with
  | none => none
  | some row => row[j]?

/-- Bounds-checked write `m[i][j] = v`. -/
def set2 (m : Matrix) (i j : Nat) (v : Int) : Option Matrix :=
  match m[i]? with
  | none => none
  | some row => if j < row.length then some (m.set i (row.set j v)) else none

/-- Two's-complement wrap-around of an integer to the 32-bit signed range. -/
def wrap32 (x : Int) : Int := (x + 2147483648) % 4294967296 - 2147483648

/-- Ways in which a run of the embedding can fail to produce a value. -/
inductive Err where
  | outOfFuel
  | outOfBounds
  deriving DecidableEq, Repr

/-- Ghost events of a run of `tsp`. -/
inductive Event where
  /-- The invocation at `(mask, pos)` calls `tsp (mask', pos')` on line 110. -/
  | call (mask pos mask' pos' : Nat)
  /-- The addition `a + b` on line 110. -/
  | add (a b : Int)
  /-- The assignment `dp[mask][pos] = new` on line 114, over the value `old`. -/
  | store (mask pos : Nat) (old new : Int)
  deriving DecidableEq, Repr

/-- What a call of `tsp` yields: the returned cost, the memo table after the
call, and the events of the call. -/
abbrev Outcome := Except Err (Int × Matrix × List Event)

/-! ## The solver -/

/-- Lines 106-113: the loop over `city`, for the cities still to be tried.
`recCall` is the recursive call with `dist` and `numCities` fixed. -/
def tspLoop (recCall : Nat → Nat → Matrix → Outcome) (mask pos : Nat) (dist : Matrix) :
    List Nat → Int → Matrix → List Event → Outcome
  | [], result, dp, log => .ok (result, dp, log)
  | city :: rest, result, dp, log =>
    if mask &&& (1 <<< city) = 0 then
      match get2 dist pos city with
      | none => .error .outOfBounds
      | some d =>
        match recCall (mask ||| (1 <<< city)) city dp with
        | .error e => .error e
        | .ok (r, dp1, log1) =>
          tspLoop recCall mask pos dist rest (min result (wrap32 (d + r))) dp1
            (log ++ Event.call mask pos (mask ||| (1 <<< city)) city :: log1 ++ [Event.add d r])
    else tspLoop recCall mask pos dist rest result dp log

/-- Lines 93-116: `tsp(mask, pos, dist, dp, numCities)`, with fuel. -/
def tsp : Nat → Nat → Nat → Matrix → Matrix → Nat → Outcome
  | 0, _, _, _, _, _ => .error .outOfFuel
  | fuel + 1, mask, pos, dist, dp, numCities =>
    if mask = (1 <<< numCities) - 1 then
      match get2 dist pos 0 with
      | none => .error .outOfBounds
      | some d => .ok (d, dp, [])
    else
      match get2 dp mask pos with
      | none => .error .outOfBounds
      | some v =>
        if v ≠ -1 then .ok (v, dp, [])
        else
          match tspLoop (fun m p t => tsp fuel m p dist t numCities) mask pos dist
              (List.range numCities) INF dp [] with
          | .error e => .error e
          | .ok (result, dp1, log) =>
            match get2 dp1 mask pos, set2 dp1 mask pos result with
            | some old, some dp2 => .ok (result, dp2, log ++ [Event.store mask pos old result])
            | _, _ => .error .outOfBounds

/-- Lines 132 and 230: `dp(1 << numCities, std::vector<int>(numCities, -1))`. -/
def freshTable (numCities : Nat) : Matrix :=
  List.replicate (1 <<< numCities) (List.replicate numCities (-1))


/-- Big-step description of a run of the loop of lines 106-113 in which every
recursive call satisfies `motive`. -/
inductive LoopRun (dist : Matrix) (motive : Nat → Nat → Matrix → Int → Matrix → List Event → Prop)
    (mask pos : Nat) :
    List Nat → Int → Matrix → List Event → Int → Matrix → List Event → Prop where
  | done (result dp log) : LoopRun dist motive mask pos [] result dp log result dp log
  | skip (city rest result dp log result' dp' log') :
      mask &&& (1 <<< city) ≠ 0 →
      LoopRun dist motive mask pos rest result dp log result' dp' log' →
      LoopRun dist motive mask pos (city :: rest) result dp log result' dp' log'
  | visit (city rest result dp log d r dp1 log1 result' dp' log') :
      mask &&& (1 <<< city) = 0 →
      get2 dist pos city = some d →
      motive (mask ||| (1 <<< city)) city dp r dp1 log1 →
      LoopRun dist motive mask pos rest (min result (wrap32 (d + r))) dp1
        (log ++ Event.call mask pos (mask ||| (1 <<< city)) city :: log1 ++ [Event.add d r])
        result' dp' log' →
      LoopRun dist motive mask pos (city :: rest) result dp log result' dp' log'

/-- The vector `m` has `rows` rows of `cols` entries each. -/
def Shaped (m : Matrix) (rows cols : Nat) : Prop :=
  m.length = rows ∧ ∀ row ∈ m, row.length = cols

/-- What a call at `(mask, pos)` leaves of the memo table `dp`: the shape, the
entries of rows up to `mask` other than `dp[mask][pos]`, and every entry
different from `-1`; and each store of the call overwrote a `-1`. -/
def FramePost (mask pos : Nat) (dp dp' : Matrix) (log : List Event) : Prop :=
  (∀ rows cols, Shaped dp rows cols → Shaped dp' rows cols) ∧
  (∀ i j, i ≤ mask → (i = mask → j ≠ pos) → get2 dp' i j = get2 dp i j) ∧
  (∀ i j w, get2 dp i j = some w → w ≠ -1 → get2 dp' i j = some w) ∧
  (∀ m p old new, Event.store m p old new ∈ log → old = -1)

/-- What holds of the recursive calls logged by a call at `mask`: the caller's
mask `m` contains `mask` and is below `2 ^ numCities` when `mask` is, the
callee's city `p'` is a city below `numCities` whose bit is clear in `m`, and
the callee's mask is `m | (1 << p')`. -/
def CallsPost (numCities mask : Nat) (log : List Event) : Prop :=
  ∀ m p m' p', Event.call m p m' p' ∈ log →
    (∀ i, mask.testBit i = true → m.testBit i = true) ∧
    (mask < 2 ^ numCities → m < 2 ^ numCities) ∧
    p' < numCities ∧ m.testBit p' = false ∧ m' = m ||| (1 <<< p')

/-- The run of `tsp` at `(m, p)` on table `t` returns `v`, leaving table `t'`
and log `l`, for some amount of fuel. -/
def Ran (dist : Matrix) (numCities m p : Nat) (t : Matrix) (v : Int) (t' : Matrix)
    (l : List Event) : Prop :=
  ∃ fuel, tsp fuel m p dist t numCities = .ok (v, t', l)

/-! ## Tours and their costs -/

/-- The weight `dist[i][j]` as a number (`0` for an index outside the matrix). -/
def entry (dist : Matrix) (i j : Nat) : Int := (get2 dist i j).getD 0

/-- Cost of the walk that leaves `pos`, visits `cities` in order and then
returns to city `0`. -/
def pathCost (dist : Matrix) : Nat → List Nat → Int
  | pos, [] => entry dist pos 0
  | pos, c :: cs => entry dist pos c + pathCost dist c cs

/-- Cost of the closed tour `0 → order → 0`. -/
def tourCost (dist : Matrix) (order : List Nat) : Int := pathCost dist 0 order

/-- The matrix cells `(from, to)` that the walk of `pathCost` adds up. -/
def edges : Nat → List Nat → List (Nat × Nat)
  | pos, [] => [(pos, 0)]
  | pos, c :: cs => (pos, c) :: edges c cs

/-- The cities below `numCities` whose bit is clear in `mask`, in the order the
loop of line 106 tries them. -/
def unvisited (mask numCities : Nat) : List Nat :=
  (List.range numCities).filter (fun c => mask &&& (1 <<< c) = 0)

/-- The value `v` is the least cost of completing a tour from state
`(mask, pos)`: it is the cost of some ordering of the unvisited cities, and no
ordering is cheaper. -/
def IsOpt (dist : Matrix) (numCities mask pos : Nat) (v : Int) : Prop :=
  (∃ order, order.Perm (unvisited mask numCities) ∧ v = pathCost dist pos order) ∧
  ∀ order, order.Perm (unvisited mask numCities) → v ≤ pathCost dist pos order

/-- Brute force, as the specification words it: the minimum over all orderings
of the cities `1 .. numCities - 1` of the cost of the closed tour from city 0. -/
def bruteForce (dist : Matrix) (numCities : Nat) : Option Int :=
  ((List.range' 1 (numCities - 1)).permutations.map (tourCost dist)).min?

/-- Every weight of the `numCities × numCities` matrix is non-negative. -/
def NonNeg (dist : Matrix) (numCities : Nat) : Prop :=
  ∀ i j, i < numCities → j < numCities → 0 ≤ entry dist i j

/-- The diagonal of the matrix is zero. -/
def ZeroDiag (dist : Matrix) (numCities : Nat) : Prop :=
  ∀ i, i < numCities → entry dist i i = 0

/-- Every sum of the entries at `numCities` distinct cells of the matrix is
below `INF`. -/
def SumsBelowINF (dist : Matrix) (numCities : Nat) : Prop :=
  ∀ cells : List (Nat × Nat), cells.Nodup → cells.length = numCities →
    (∀ c ∈ cells, c.1 < numCities ∧ c.2 < numCities) →
    (cells.map (fun c => entry dist c.1 c.2)).sum < INF

/-- Every memo entry other than `-1` is the least completion cost of its state. -/
def Consistent (dist : Matrix) (numCities : Nat) (dp : Matrix) : Prop :=
  ∀ m p w, get2 dp m p = some w → w ≠ -1 → IsOpt dist numCities m p w

/-- Every memoised state has all of its successor states memoised (or full). -/
def Closed (numCities : Nat) (dp : Matrix) : Prop :=
  ∀ m p w, get2 dp m p = some w → w ≠ -1 → ∀ c, c < numCities → m.testBit c = false →
    m ||| (1 <<< c) = (1 <<< numCities) - 1 ∨
    ∃ w', get2 dp (m ||| (1 <<< c)) c = some w' ∧ w' ≠ -1

/-- What a call at `(mask, pos)` on a consistent table computes: the least
completion cost; it leaves the table consistent, stores only least completion
costs, adds without leaving the range below `INF`, and keeps a closed table
closed, with the state of the call memoised. -/
def ValuePost (dist : Matrix) (numCities mask pos : Nat) (dp : Matrix) (v : Int)
    (dp' : Matrix) (log : List Event) : Prop :=
  mask < 2 ^ numCities → pos < numCities → mask.testBit pos = true →
  Consistent dist numCities dp →
    IsOpt dist numCities mask pos v ∧ Consistent dist numCities dp' ∧
    (∀ m p old new, Event.store m p old new ∈ log → IsOpt dist numCities m p new) ∧
    (∀ a b, Event.add a b ∈ log → 0 ≤ a ∧ 0 ≤ b ∧ a + b < INF) ∧
    (Closed numCities dp → Closed numCities dp' ∧
      (mask ≠ (1 <<< numCities) - 1 → ∃ w, get2 dp' mask pos = some w ∧ w ≠ -1))

/-- The states `(mask, pos)` that the recursion reaches from `tsp(1, 0, ...)`. -/
inductive Reach (numCities : Nat) : Nat → Nat → Prop where
  | root : Reach numCities 1 0
  | step {m p c : Nat} : Reach numCities m p → c < numCities → m.testBit c = false →
      Reach numCities (m ||| (1 <<< c)) c

/-- The table `dp` with the entries selected by `clear` reset to `-1`. -/
def resetEntries (clear : Nat → Nat → Bool) (dp : Matrix) : Matrix :=
  dp.mapIdx (fun m row => row.mapIdx (fun p w => if clear m p then -1 else w))

/-! ## Text files: `saveMatrixToFile` and `loadMatrixFromFile`

A file is the list of its characters.  An input stream is the text not yet
consumed together with its fail flag; `readInt` is the formatted extraction
`file >> x` of an `int`. -/

/-- An input file stream: the unread characters, and whether `failbit` is set. -/
structure IStream where
  buf : List Char
  failed : Bool
  deriving DecidableEq, Repr

/-- The whitespace of the classic locale, skipped before a formatted read. -/
def isSpace (c : Char) : Bool :=
  c = ' ' || c = Char.ofNat 9 || c = Char.ofNat 10 || c = Char.ofNat 11 || c = Char.ofNat 12
    || c = Char.ofNat 13

/-- The newline written by `std::endl`. -/
def newline : Char := Char.ofNat 10

/-- Skipping of leading whitespace. -/
def skipSpaces : List Char → List Char
  | [] => []
  | c :: cs => if isSpace c then skipSpaces cs else c :: cs

/-- Consumes the leading decimal digits, accumulating their value onto `acc`. -/
def readDigits : List Char → Nat → Nat × List Char
  | [], acc => (acc, [])
  | c :: cs, acc =>
    if c.isDigit then readDigits cs (acc * 10 + (c.toNat - 48)) else (acc, c :: cs)

/-- Result of `file >> x`: the value assigned to `x` (`none` when `x` is left
untouched) and the stream afterwards. -/
structure ReadResult where
  value : Option Int
  stream : IStream
  deriving DecidableEq, Repr

/-- The extraction `file >> x` for an `int x`.  A stream that has failed, or
that ends before any non-blank character, leaves `x` untouched and fails.
Otherwise an optional sign and the decimal digits after it are consumed:
without a digit `x` becomes `0` and the stream fails; a value outside the
`int` range is clamped to the nearest bound and the stream fails. -/
def readInt (s : IStream) : ReadResult :=
  if s.failed then ⟨none, s⟩
  else
    match skipSpaces s.buf with
    | [] => ⟨none, ⟨[], true⟩⟩
    | c :: cs =>
      let body := if c = '-' ∨ c = '+' then cs else c :: cs
      match body with
      | [] => ⟨some 0, ⟨[], true⟩⟩
      | d :: ds =>
        if d.isDigit then
          let r := readDigits (d :: ds) 0
          let v : Int := if c = '-' then -(r.1 : Int) else (r.1 : Int)
          if v > 2147483647 then ⟨some 2147483647, ⟨r.2, true⟩⟩
          else if v < -2147483648 then ⟨some (-2147483648), ⟨r.2, true⟩⟩
          else ⟨some v, ⟨r.2, false⟩⟩
        else ⟨some 0, ⟨d :: ds, true⟩⟩

/-- Whether `k` successive extractions `file >> x` all succeed. -/
def readsOK : Nat → IStream → Bool
  | 0, _ => true
  | k + 1, s => !(readInt s).stream.failed && readsOK k (readInt s).stream

/-- The stream after `k` successive extractions. -/
def advance : Nat → IStream → IStream
  | 0, s => s
  | k + 1, s => advance k (readInt s).stream

/-- Lines 81-88: the loop over `j` for row `i`; returns whether every extraction
succeeded, the stream, and the matrix. -/
def loadRow (i : Nat) : List Nat → IStream → Matrix → Bool × IStream × Matrix
  | [], s, m => (true, s, m)
  | j :: js, s, m =>
    let r := readInt s
    let m1 := match r.value with
      | some v => (set2 m i j v).getD m
      | none => m
    if r.stream.failed then (false, r.stream, m1) else loadRow i js r.stream m1

/-- Lines 79-89: the loop over `i`. -/
def loadRows (n : Nat) : List Nat → IStream → Matrix → Bool × Matrix
  | [], _, m => (true, m)
  | i :: rest, s, m =>
    match loadRow i (List.range n) s m with
    | (false, _, m1) => (false, m1)
    | (true, s1, m1) => loadRows n rest s1 m1

/-- What `loadMatrixFromFile` returns and leaves in its two reference
parameters. -/
structure LoadResult where
  ok : Bool
  matrix : Matrix
  numCities : Int
  deriving DecidableEq, Repr

/-- Lines 62-91: `loadMatrixFromFile(filename, matrix, numCities)`.  `file` is
the content of the named file, `none` when it cannot be opened; `matrix` and
`numCities` are the values of the reference parameters on entry. -/
def loadMatrixFromFile (file : Option (List Char)) (matrix : Matrix) (numCities : Int) :
    LoadResult :=
  match file with
  | none => ⟨false, matrix, numCities⟩
  | some text =>
    let r := readInt ⟨text, false⟩
    let declared := r.value.getD numCities
    if declared < 2 ∨ declared > MAX_CITIES then ⟨false, matrix, declared⟩
    else
      let n := declared.toNat
      let out := loadRows n (List.range n) r.stream (List.replicate n (List.replicate n 0))
      ⟨out.1, out.2, declared⟩

/-- The values of the 32-bit `int` type. -/
def IsInt32 (v : Int) : Prop := -2147483648 ≤ v ∧ v ≤ 2147483647

/-- The decimal digit `d`. -/
def digitChar (d : Nat) : Char :=
  match d with
  | 0 => '0' | 1 => '1' | 2 => '2' | 3 => '3' | 4 => '4'
  | 5 => '5' | 6 => '6' | 7 => '7' | 8 => '8' | _ => '9'

/-- Decimal digits of `n` in front of `acc`, most significant first. -/
def natDigitsAux : Nat → Nat → List Char → List Char
  | 0, _, acc => acc
  | fuel + 1, n, acc =>
    if n < 10 then digitChar n :: acc
    else natDigitsAux fuel (n / 10) (digitChar (n % 10) :: acc)

/-- The text `file << v` writes for an `int v`. -/
def showInt (v : Int) : List Char :=
  if v < 0 then '-' :: natDigitsAux (v.natAbs + 1) v.natAbs []
  else natDigitsAux (v.natAbs + 1) v.natAbs []

/-- Lines 40-44: one row, each value followed by a blank, then `std::endl`. -/
def saveRow : List Int → List Char
  | [] => [newline]
  | v :: vs => showInt v ++ ' ' :: saveRow vs

/-- Lines 38-45: the rows. -/
def saveRows : Matrix → List Char
  | [] => []
  | row :: rows => saveRow row ++ saveRows rows

/-- Lines 28-48: the text `saveMatrixToFile(matrix, numCities, filename)` writes
to the file, when the file can be opened. -/
def saveMatrixToFile (matrix : Matrix) (numCities : Int) : List Char :=
  showInt numCities ++ newline :: saveRows matrix

/-! ## Batch solving and the menu loop -/

/-- One iteration of the loop of `massCalculate` (lines 120-142) on a file:
`none` when the file is skipped (line 129), otherwise the matrix and city count
`tsp` is called on (line 135) and what the call yields.  `numCities` is the
indeterminate initial value of the local variable of line 124. -/
def massCalculateFile (file : Option (List Char)) (numCities : Int) :
    Option (Matrix × Int × Outcome) :=
  let r := loadMatrixFromFile file [] numCities
  if r.ok then
    some (r.matrix, r.numCities,
      tsp (2 ^ r.numCities.toNat) 1 0 r.matrix (freshTable r.numCities.toNat) r.numCities.toNat)
  else none

/-- Lines 118-143: `massCalculate(numFiles)`; `files i` is the content of
`matrix_i.txt`. -/
def massCalculate (numFiles : Int) (files : Nat → Option (List Char)) (numCities : Int) :
    List (Option (Matrix × Int × Outcome)) :=
  (List.range' 1 numFiles.toNat).map (fun i => massCalculateFile (files i) numCities)

/-- Lines 13-26: `generateMatrix`; `draw i j` is the number drawn for cell
`(i, j)`. -/
def generateMatrix (numCities : Nat) (draw : Nat → Nat → Int) : Matrix :=
  (List.range numCities).map (fun i =>
    (List.range numCities).map (fun j => if i = j then 0 else draw i j))

/-- The session state of `main`: the variables `numCities` and `dist` of lines
160-161. -/
structure Session where
  numCities : Int
  dist : Matrix
  deriving DecidableEq, Repr

/-- One round of the menu loop: the option chosen with the input it reads. -/
inductive Command where
  /-- Option 1: the city count and the number of matrices typed in, and the
  numbers drawn for the `k`-th matrix. -/
  | generate (numCities numMatrices : Int) (draw : Nat → Nat → Nat → Int)
  /-- Option 2: the content of the file named by the user. -/
  | load (file : Option (List Char))
  /-- Option 3. -/
  | display
  /-- Option 4. -/
  | solve
  /-- Option 5: the number of files and the content of `matrix_i.txt`. -/
  | mass (numFiles : Int) (files : Nat → Option (List Char))
  /-- Any other option. -/
  | other

/-- Option 1, lines 185-192: the matrices generated one after the other into
`dist`; the session keeps the last one. -/
def generateAll (numCities : Nat) (draw : Nat → Nat → Nat → Int) :
    List Nat → Matrix → Matrix
  | [], dist => dist
  | k :: ks, _ => generateAll numCities draw ks (generateMatrix numCities (draw k))

/-- Lines 168-255: one round of the menu loop.  Returns the session afterwards
and, when option 4 calls `tsp` (line 233), the arguments `dist` and `numCities`
of that call. -/
def menuStep (s : Session) : Command → Session × Option (Matrix × Int)
  | .generate numCities numMatrices draw =>
    if numCities > MAX_CITIES ∨ numCities < 2 then (⟨numCities, s.dist⟩, none)
    else
      (⟨numCities, generateAll numCities.toNat draw (List.range numMatrices.toNat) s.dist⟩, none)
  | .load file =>
    let r := loadMatrixFromFile file s.dist s.numCities
    (⟨r.numCities, r.matrix⟩, none)
  | .display => (s, none)
  | .solve => if s.dist.isEmpty then (s, none) else (s, some (s.dist, s.numCities))
  | .mass _ _ => (s, none)
  | .other => (s, none)

/-- The session `main` starts with (lines 160-161): `numCities = 0` and an
empty `dist`. -/
def initialSession : Session := ⟨0, []⟩

/-- Lines 163-256: the `do ... while` loop of `main` on the rounds still to
come; collects the calls of `tsp` made by option 4, in order. -/
def mainLoop : List Command → Session → List (Matrix × Int) → Session × List (Matrix × Int)
  | [], s, calls => (s, calls)
  | c :: cs, s, calls =>
    match menuStep s c with
    | (s1, none) => mainLoop cs s1 calls
    | (s1, some call) => mainLoop cs s1 (calls ++ [call])

/-- Lines 157-259: `main` on the rounds the user plays before choosing option
6: the final session and the arguments `(dist, numCities)` of each call of
`tsp` made by option 4. -/
def main (rounds : List Command) : Session × List (Matrix × Int) :=
  mainLoop rounds initialSession []

/-- The city count that line 71, `file >> numCities`, leaves in `numCities`
(whose value before the read is `numCities0`). -/
def declaredCount (text : List Char) (numCities0 : Int) : Int :=
  (readInt ⟨text, false⟩).value.getD numCities0

/-- The stream after line 71 has read the city count. -/
def afterCount (text : List Char) : IStream := (readInt ⟨text, false⟩).stream

/-! ## Bit masks and bounds-checked vectors -/

theorem and_shift_eq_zero {mask c : Nat} : mask &&& (1 <<< c) = 0 ↔ mask.testBit c = false := by
  rw [Nat.one_shiftLeft, Nat.and_two_pow]
  cases mask.testBit c <;> simp

theorem testBit_or_shift (mask c i : Nat) :
    (mask ||| (1 <<< c)).testBit i = (mask.testBit i || decide (c = i)) := by
  rw [Nat.one_shiftLeft, Nat.testBit_or, Nat.testBit_two_pow]

theorem or_shift_eq_add {mask c : Nat} (h : mask.testBit c = false) :
    mask ||| (1 <<< c) = mask + 2 ^ c := by
  rw [Nat.one_shiftLeft]
  have hb : mask % 2 ^ (c + 1) < 2 ^ c := by
    apply Nat.lt_pow_two_of_testBit
    intro i hi
    rw [Nat.testBit_mod_two_pow]
    rcases Nat.eq_or_lt_of_le hi with rfl | hlt
    · simp [h]
    · have : ¬ i < c + 1 := by omega
      simp [this]
  have hm : mask = 2 ^ (c + 1) * (mask / 2 ^ (c + 1)) + mask % 2 ^ (c + 1) :=
    (Nat.div_add_mod _ _).symm
  generalize mask / 2 ^ (c + 1) = a at hm
  generalize mask % 2 ^ (c + 1) = b at hm hb
  have h1 : 2 ^ c * 1 + b = 2 ^ c * 1 ||| b := Nat.mul_add_lt_is_or hb 1
  have hb' : b + 2 ^ c < 2 ^ (c + 1) := by rw [pow_succ]; omega
  have h2 := Nat.mul_add_lt_is_or hb' a
  have h3 := Nat.mul_add_lt_is_or (Nat.lt_of_lt_of_le hb (Nat.pow_le_pow_right (by norm_num) (Nat.le_succ c))) a
  rw [hm]
  calc (2 ^ (c + 1) * a + b) ||| 2 ^ c
      = (2 ^ (c + 1) * a ||| b) ||| 2 ^ c := by rw [h3]
    _ = 2 ^ (c + 1) * a ||| (2 ^ c * 1 ||| b) := by
        rw [Nat.mul_one, Nat.or_assoc, Nat.or_comm b]
    _ = 2 ^ (c + 1) * a ||| (b + 2 ^ c) := by rw [← h1]; congr 1; omega
    _ = 2 ^ (c + 1) * a + (b + 2 ^ c) := h2.symm
    _ = 2 ^ (c + 1) * a + b + 2 ^ c := by omega

theorem lt_or_shift {mask c : Nat} (h : mask.testBit c = false) : mask < mask ||| (1 <<< c) := by
  rw [or_shift_eq_add h]
  have := Nat.two_pow_pos c
  omega

theorem or_shift_lt {mask c n : Nat} (hm : mask < 2 ^ n) (hc : c < n) :
    mask ||| (1 <<< c) < 2 ^ n := by
  rw [Nat.one_shiftLeft]
  exact Nat.or_lt_two_pow hm (Nat.pow_lt_pow_right (by norm_num) hc)

/-- A mask below `2 ^ n` with all of its low `n` bits set is the full mask. -/
theorem eq_full_of_bits {mask n : Nat} (hm : mask < 2 ^ n)
    (h : ∀ c, c < n → mask.testBit c = true) : mask = (1 <<< n) - 1 := by
  rw [Nat.one_shiftLeft]
  apply Nat.eq_of_testBit_eq
  intro i
  rw [Nat.testBit_two_pow_sub_one]
  by_cases hi : i < n
  · simp [hi, h i hi]
  · simp only [hi, decide_False]
    exact Nat.testBit_lt_two_pow (Nat.lt_of_lt_of_le hm (Nat.pow_le_pow_right (by norm_num) (by omega)))

theorem full_testBit (n c : Nat) : ((1 <<< n) - 1).testBit c = decide (c < n) := by
  rw [Nat.one_shiftLeft, Nat.testBit_two_pow_sub_one]

theorem get2_set2 {m m' : Matrix} {i j : Nat} {v : Int} (h : set2 m i j v = some m')
    (i' j' : Nat) : get2 m' i' j' = if i' = i ∧ j' = j then some v else get2 m i' j' := by
  unfold set2 at h
  split at h
  · cases h
  · rename_i row hrow
    split at h
    · rename_i hj
      cases h
      have hi : i < m.length := by
        rcases List.getElem?_eq_some_iff.1 hrow with ⟨hi, _⟩
        exact hi
      unfold get2
      rw [List.getElem?_set]
      by_cases hii : i = i'
      · subst hii
        simp only [hi, if_true, true_and, hrow]
        rw [List.getElem?_set]
        by_cases hjj : j = j'
        · subst hjj; simp [hj]
        · have : ¬ j' = j := fun h => hjj h.symm
          simp [hjj, this]
      · have : ¬ i' = i := fun h => hii h.symm
        simp [hii, this]
    · cases h

theorem set2_shaped {m m' : Matrix} {i j : Nat} {v : Int} {rows cols : Nat}
    (h : set2 m i j v = some m') (hs : Shaped m rows cols) : Shaped m' rows cols := by
  unfold set2 at h
  split at h
  · cases h
  · rename_i row hrow
    split at h
    · cases h
      refine ⟨by rw [List.length_set]; exact hs.1, ?_⟩
      intro r hr
      rcases List.mem_or_eq_of_mem_set hr with hr | rfl
      · exact hs.2 r hr
      · rw [List.length_set]
        exact hs.2 row (List.getElem?_mem hrow)
    · cases h

theorem get2_of_shaped {m : Matrix} {rows cols i j : Nat} (hs : Shaped m rows cols)
    (hi : i < rows) (hj : j < cols) : ∃ v, get2 m i j = some v := by
  have hi' : i < m.length := by rw [hs.1]; exact hi
  have hrow : m[i]? = some (m[i]) := List.getElem?_eq_getElem hi'
  have hlen : (m[i]).length = cols := hs.2 _ (List.getElem_mem _)
  refine ⟨(m[i])[j], ?_⟩
  unfold get2
  rw [hrow]
  exact List.getElem?_eq_getElem (by rw [hlen]; exact hj)

theorem set2_of_get2 {m : Matrix} {i j : Nat} {old : Int} (h : get2 m i j = some old) (v : Int) :
    ∃ m', set2 m i j v = some m' := by
  unfold get2 at h
  unfold set2
  split at h
  · cases h
  · rename_i row hrow
    have hj : j < row.length := (List.getElem?_eq_some_iff.1 h).1
    exact ⟨m.set i (row.set j v), by simp [hj]⟩

theorem bounds_of_get2 {m : Matrix} {rows cols i j : Nat} {v : Int} (hs : Shaped m rows cols)
    (h : get2 m i j = some v) : i < rows ∧ j < cols := by
  unfold get2 at h
  split at h
  · cases h
  · rename_i row hrow
    have hi := (List.getElem?_eq_some_iff.1 hrow).1
    have hj := (List.getElem?_eq_some_iff.1 h).1
    have hlen := hs.2 row (List.getElem?_mem hrow)
    exact ⟨by rw [← hs.1]; exact hi, by rw [← hlen]; exact hj⟩

/-! ## Successful runs of `tsp` -/

theorem tspLoop_run {dist : Matrix} {motive : Nat → Nat → Matrix → Int → Matrix → List Event → Prop}
    {recCall : Nat → Nat → Matrix → Outcome} {mask pos : Nat}
    (hrec : ∀ m p t v t' l, recCall m p t = .ok (v, t', l) → motive m p t v t' l) :
    ∀ (cities : List Nat) (result : Int) (dp : Matrix) (log : List Event)
      (result' : Int) (dp' : Matrix) (log' : List Event),
      tspLoop recCall mask pos dist cities result dp log = .ok (result', dp', log') →
      LoopRun dist motive mask pos cities result dp log result' dp' log' := by
  intro cities
  induction cities with
  | nil =>
    intro result dp log result' dp' log' h
    simp only [tspLoop, Except.ok.injEq, Prod.mk.injEq] at h
    obtain ⟨rfl, rfl, rfl⟩ := h
    exact LoopRun.done _ _ _
  | cons city rest ih =>
    intro result dp log result' dp' log' h
    rw [tspLoop] at h
    split at h
    · rename_i hbit
      split at h
      · cases h
      · rename_i d hd
        split at h
        · cases h
        · rename_i r dp1 log1 hr
          exact LoopRun.visit _ _ _ _ _ d r dp1 log1 _ _ _ hbit hd (hrec _ _ _ _ _ _ hr)
            (ih _ _ _ _ _ _ h)
    · rename_i hbit
      exact LoopRun.skip _ _ _ _ _ _ _ _ hbit (ih _ _ _ _ _ _ h)

theorem LoopRun_mono {dist : Matrix}
    {motive motive' : Nat → Nat → Matrix → Int → Matrix → List Event → Prop}
    (hmono : ∀ m p t v t' l, motive m p t v t' l → motive' m p t v t' l)
    {mask pos : Nat} {cities : List Nat} {result : Int} {dp : Matrix} {log : List Event}
    {result' : Int} {dp' : Matrix} {log' : List Event}
    (h : LoopRun dist motive mask pos cities result dp log result' dp' log') :
    LoopRun dist motive' mask pos cities result dp log result' dp' log' := by
  induction h with
  | done result dp log => exact LoopRun.done _ _ _
  | skip city rest result dp log result' dp' log' hbit _ ih =>
    exact LoopRun.skip _ _ _ _ _ _ _ _ hbit ih
  | visit city rest result dp log d r dp1 log1 result' dp' log' hbit hd hcall _ ih =>
    exact LoopRun.visit _ _ _ _ _ d r dp1 log1 _ _ _ hbit hd (hmono _ _ _ _ _ _ hcall) ih

/-- Induction principle for successful runs of `tsp`: a property of
`(mask, pos, dp, value, dp', log)` holds of every run that returns, once it
holds of the three ways a call can return. -/
theorem tsp_ind {dist : Matrix} {numCities : Nat}
    (motive : Nat → Nat → Matrix → Int → Matrix → List Event → Prop)
    (base : ∀ mask pos dp d, mask = (1 <<< numCities) - 1 → get2 dist pos 0 = some d →
      motive mask pos dp d dp [])
    (hit : ∀ mask pos dp v, mask ≠ (1 <<< numCities) - 1 → get2 dp mask pos = some v → v ≠ -1 →
      motive mask pos dp v dp [])
    (miss : ∀ mask pos dp result dp1 log old dp2, mask ≠ (1 <<< numCities) - 1 →
      get2 dp mask pos = some (-1) →
      LoopRun dist (fun m p t v t' l => Ran dist numCities m p t v t' l ∧ motive m p t v t' l)
        mask pos (List.range numCities) INF dp [] result dp1 log →
      get2 dp1 mask pos = some old → set2 dp1 mask pos result = some dp2 →
      motive mask pos dp result dp2 (log ++ [Event.store mask pos old result])) :
    ∀ fuel mask pos dp v dp' log,
      tsp fuel mask pos dist dp numCities = .ok (v, dp', log) → motive mask pos dp v dp' log := by
  intro fuel
  induction fuel with
  | zero => intro mask pos dp v dp' log h; simp [tsp] at h
  | succ fuel ih =>
    intro mask pos dp v dp' log h
    rw [tsp] at h
    split at h
    · rename_i hfull
      split at h
      · cases h
      · rename_i d hd
        simp only [Except.ok.injEq, Prod.mk.injEq] at h
        obtain ⟨rfl, rfl, rfl⟩ := h
        exact base _ _ _ _ hfull hd
    · rename_i hfull
      split at h
      · cases h
      · rename_i w hw
        split at h
        · rename_i hne
          simp only [Except.ok.injEq, Prod.mk.injEq] at h
          obtain ⟨rfl, rfl, rfl⟩ := h
          exact hit _ _ _ _ hfull hw hne
        · rename_i heq
          have hw1 : w = -1 := by simpa using heq
          subst hw1
          split at h
          · cases h
          · rename_i result dp1 log1 hloop
            split at h
            · rename_i old dp2 hold hset
              simp only [Except.ok.injEq, Prod.mk.injEq] at h
              obtain ⟨rfl, rfl, rfl⟩ := h
              exact miss _ _ _ _ _ _ _ _ hfull hw
                (tspLoop_run (fun m p t v t' l hr => ⟨⟨fuel, hr⟩, ih m p t v t' l hr⟩) _ _ _ _ _ _ _ hloop)
                hold hset
            · cases h


/-! ## Frame of a call: shape, untouched entries, write-once stores -/

theorem loop_frame {dist : Matrix} {mask pos : Nat}
    {cities : List Nat} {result : Int} {dp : Matrix} {log : List Event}
    {result' : Int} {dp' : Matrix} {log' : List Event}
    (h : LoopRun dist (fun m p t _ t' l => FramePost m p t t' l) mask pos
      cities result dp log result' dp' log') :
    (∀ rows cols, Shaped dp rows cols → Shaped dp' rows cols) ∧
    (∀ i j, i ≤ mask → get2 dp' i j = get2 dp i j) ∧
    (∀ i j w, get2 dp i j = some w → w ≠ -1 → get2 dp' i j = some w) ∧
    (∀ m p old new, Event.store m p old new ∈ log' →
      Event.store m p old new ∈ log ∨ old = -1) := by
  induction h with
  | done result dp log =>
    exact ⟨fun _ _ h => h, fun _ _ _ => rfl, fun _ _ _ h _ => h, fun _ _ _ _ h => Or.inl h⟩
  | skip city rest result dp log result' dp' log' _ _ ih => exact ih
  | visit city rest result dp log d r dp1 log1 result' dp' log' hbit _ hcall _ ih =>
    obtain ⟨hs, hfr, hkeep, hst⟩ := hcall
    obtain ⟨ihs, ihfr, ihkeep, ihst⟩ := ih
    have hlt : mask < mask ||| (1 <<< city) := lt_or_shift (and_shift_eq_zero.1 hbit)
    refine ⟨fun rows cols h => ihs _ _ (hs _ _ h), ?_, ?_, ?_⟩
    · intro i j hi
      rw [ihfr i j hi]
      exact hfr i j (by omega) (fun h => by omega)
    · intro i j w hw hne
      exact ihkeep i j w (hkeep i j w hw hne) hne
    · intro m p old new hmem
      rcases ihst m p old new hmem with hmem | h
      · simp only [List.mem_append, List.mem_cons, List.mem_singleton, List.mem_nil_iff,
          or_false] at hmem
        rcases hmem with (hmem | hmem | hmem) | hmem
        · exact Or.inl hmem
        · cases hmem
        · exact Or.inr (hst m p old new hmem)
        · cases hmem
      · exact Or.inr h

theorem tsp_frame {dist : Matrix} {numCities : Nat} :
    ∀ fuel mask pos dp v dp' log,
      tsp fuel mask pos dist dp numCities = .ok (v, dp', log) → FramePost mask pos dp dp' log := by
  apply tsp_ind (fun m p t _ t' l => FramePost m p t t' l)
  · intro mask pos dp d _ _
    exact ⟨fun _ _ h => h, fun _ _ _ _ => rfl, fun _ _ _ h _ => h, fun _ _ _ _ h => by cases h⟩
  · intro mask pos dp v _ _ _
    exact ⟨fun _ _ h => h, fun _ _ _ _ => rfl, fun _ _ _ h _ => h, fun _ _ _ _ h => by cases h⟩
  · intro mask pos dp result dp1 log old dp2 _ hmiss hloop hold hset
    obtain ⟨hs, hfr, hkeep, hst⟩ := loop_frame (LoopRun_mono (fun _ _ _ _ _ _ h => h.2) hloop)
    have hold1 : old = -1 := by
      have := hfr mask pos (Nat.le_refl _)
      rw [hold, hmiss] at this
      exact Option.some.inj this
    refine ⟨fun rows cols h => set2_shaped hset (hs _ _ h), ?_, ?_, ?_⟩
    · intro i j hi hne
      rw [get2_set2 hset]
      have : ¬ (i = mask ∧ j = pos) := fun h => hne h.1 h.2
      rw [if_neg this]
      exact hfr i j hi
    · intro i j w hw hne
      rw [get2_set2 hset]
      have : ¬ (i = mask ∧ j = pos) := by
        rintro ⟨rfl, rfl⟩
        rw [hmiss] at hw
        exact hne (Option.some.inj hw).symm
      rw [if_neg this]
      exact hkeep i j w hw hne
    · intro m p old' new hmem
      simp only [List.mem_append, List.mem_singleton] at hmem
      rcases hmem with hmem | hmem
      · rcases hst m p old' new hmem with h | h
        · cases h
        · exact h
      · cases hmem
        exact hold1

/-! ## Totality: enough fuel and well-shaped vectors give a result -/

theorem tspLoop_total {dist : Matrix} (recCall : Nat → Nat → Matrix → Outcome)
    (mask : Nat) {pos : Nat} (rows : Nat) {numCities : Nat}
    (hdist : Shaped dist numCities numCities)
    (hpos : pos < numCities) :
    ∀ (cities : List Nat), (∀ c ∈ cities, c < numCities) →
      (∀ c ∈ cities, mask &&& (1 <<< c) = 0 → ∀ t, Shaped t rows numCities →
        ∃ v t' l, recCall (mask ||| (1 <<< c)) c t = .ok (v, t', l) ∧ Shaped t' rows numCities) →
      ∀ (result : Int) (dp : Matrix) (log : List Event), Shaped dp rows numCities →
        ∃ result' dp' log', tspLoop recCall mask pos dist cities result dp log
          = .ok (result', dp', log') ∧ Shaped dp' rows numCities := by
  intro cities
  induction cities with
  | nil =>
    intro _ _ result dp log hs
    exact ⟨result, dp, log, rfl, hs⟩
  | cons city rest ih =>
    intro hlt hrec result dp log hs
    have ih' := ih (fun c hc => hlt c (List.mem_cons_of_mem _ hc))
      (fun c hc => hrec c (List.mem_cons_of_mem _ hc))
    rw [tspLoop]
    split
    · rename_i hbit
      obtain ⟨d, hd⟩ := get2_of_shaped hdist hpos (hlt city (List.mem_cons_self _ _))
      obtain ⟨v, t', l, hr, hs'⟩ := hrec city (List.mem_cons_self _ _) hbit dp hs
      simp only [hd, hr]
      exact ih' _ _ _ hs'
    · exact ih' _ _ _ hs

theorem tsp_total {dist : Matrix} {numCities : Nat} (hdist : Shaped dist numCities numCities) :
    ∀ fuel mask pos dp, Shaped dp (1 <<< numCities) numCities → mask < 2 ^ numCities →
      pos < numCities → 2 ^ numCities - mask ≤ fuel →
      ∃ v dp' log, tsp fuel mask pos dist dp numCities = .ok (v, dp', log) := by
  intro fuel
  induction fuel with
  | zero => intro mask pos dp _ hm _ hf; omega
  | succ fuel ih =>
    intro mask pos dp hs hm hpos hf
    rw [tsp]
    split
    · obtain ⟨d, hd⟩ := get2_of_shaped hdist hpos (Nat.lt_of_le_of_lt (Nat.zero_le _) hpos)
      simp only [hd]
      exact ⟨_, _, _, rfl⟩
    · obtain ⟨v, hv⟩ := get2_of_shaped hs (by rw [Nat.one_shiftLeft]; exact hm) hpos
      simp only [hv]
      split
      · exact ⟨_, _, _, rfl⟩
      · have hloop := tspLoop_total (fun m p t => tsp fuel m p dist t numCities)
          mask (1 <<< numCities) hdist hpos (List.range numCities)
          (fun c hc => List.mem_range.1 hc)
          (by
            intro c hc hbit t ht
            have hc' : c < numCities := List.mem_range.1 hc
            have hlt := lt_or_shift (and_shift_eq_zero.1 hbit)
            have hlt' := or_shift_lt hm hc'
            obtain ⟨v, t', l, h⟩ := ih (mask ||| (1 <<< c)) c t ht hlt' hc' (by omega)
            exact ⟨v, t', l, h, (tsp_frame _ _ _ _ _ _ _ h).1 _ _ ht⟩)
          INF dp [] hs
        obtain ⟨result, dp1, log, hrun, hs1⟩ := hloop
        simp only [hrun]
        obtain ⟨old, hold⟩ := get2_of_shaped hs1 (by rw [Nat.one_shiftLeft]; exact hm) hpos
        obtain ⟨dp2, hset⟩ := set2_of_get2 hold result
        simp only [hold, hset]
        exact ⟨_, _, _, rfl⟩

/-- Whatever the vectors hold, a call below the full mask with fuel
`2 ^ numCities - mask` does not run out of fuel. -/
theorem tspLoop_fuel (dist : Matrix) (recCall : Nat → Nat → Matrix → Outcome)
    (mask pos : Nat) :
    ∀ (cities : List Nat),
      (∀ c ∈ cities, mask &&& (1 <<< c) = 0 → ∀ t,
        recCall (mask ||| (1 <<< c)) c t ≠ .error .outOfFuel) →
      ∀ (result : Int) (dp : Matrix) (log : List Event),
        tspLoop recCall mask pos dist cities result dp log ≠ .error .outOfFuel := by
  intro cities
  induction cities with
  | nil => intro _ result dp log h; simp [tspLoop] at h
  | cons city rest ih =>
    intro hrec result dp log
    have ih' := ih (fun c hc => hrec c (List.mem_cons_of_mem _ hc))
    rw [tspLoop]
    split
    · rename_i hbit
      split
      · simp
      · split
        · rename_i e he
          intro h
          cases h
          exact hrec city (List.mem_cons_self _ _) hbit dp he
        · exact ih' _ _ _
    · exact ih' _ _ _

theorem tsp_fuel {dist : Matrix} {numCities : Nat} :
    ∀ fuel mask pos dp, mask < 2 ^ numCities → 2 ^ numCities - mask ≤ fuel →
      tsp fuel mask pos dist dp numCities ≠ .error .outOfFuel := by
  intro fuel
  induction fuel with
  | zero => intro mask pos dp hm hf; omega
  | succ fuel ih =>
    intro mask pos dp hm hf
    rw [tsp]
    split
    · split <;> simp
    · split
      · simp
      · split
        · simp
        · have hloop := tspLoop_fuel dist (fun m p t => tsp fuel m p dist t numCities)
            mask pos (List.range numCities)
            (by
              intro c hc hbit t
              have hc' : c < numCities := List.mem_range.1 hc
              have hlt := lt_or_shift (and_shift_eq_zero.1 hbit)
              exact ih _ _ _ (or_shift_lt hm hc') (by omega))
            INF dp []
          split
          · rename_i e he
            intro h
            cases h
            exact hloop he
          · split <;> simp

/-! ## The recursive calls of a run -/

theorem loop_calls {dist : Matrix} {numCities mask pos : Nat}
    {cities : List Nat} {result : Int} {dp : Matrix} {log : List Event}
    {result' : Int} {dp' : Matrix} {log' : List Event}
    (h : LoopRun dist (fun m _ _ _ _ l => CallsPost numCities m l) mask pos
      cities result dp log result' dp' log')
    (hc : ∀ c ∈ cities, c < numCities) :
    ∀ m p m' p', Event.call m p m' p' ∈ log' → Event.call m p m' p' ∈ log ∨
      ((∀ i, mask.testBit i = true → m.testBit i = true) ∧
        (mask < 2 ^ numCities → m < 2 ^ numCities) ∧
        p' < numCities ∧ m.testBit p' = false ∧ m' = m ||| (1 <<< p')) := by
  induction h with
  | done result dp log => exact fun _ _ _ _ h => Or.inl h
  | skip city rest result dp log result' dp' log' _ _ ih =>
    exact ih (fun c h => hc c (List.mem_cons_of_mem _ h))
  | visit city rest result dp log d r dp1 log1 result' dp' log' hbit _ hcall _ ih =>
    intro m p m' p' hmem
    have hcity : city < numCities := hc city (List.mem_cons_self _ _)
    have hclear : mask.testBit city = false := and_shift_eq_zero.1 hbit
    rcases ih (fun c h => hc c (List.mem_cons_of_mem _ h)) m p m' p' hmem with hmem | h
    · simp only [List.mem_append, List.mem_cons, List.mem_singleton, List.mem_nil_iff,
        or_false] at hmem
      rcases hmem with (hmem | hmem | hmem) | hmem
      · exact Or.inl hmem
      · cases hmem
        exact Or.inr ⟨fun _ h => h, fun h => h, hcity, hclear, rfl⟩
      · obtain ⟨h1, h2, h3, h4, h5⟩ := hcall m p m' p' hmem
        refine Or.inr ⟨?_, ?_, h3, h4, h5⟩
        · intro i hi
          apply h1
          rw [testBit_or_shift, hi]
          rfl
        · intro hm
          exact h2 (or_shift_lt hm hcity)
      · cases hmem
    · exact Or.inr h

theorem tsp_calls {dist : Matrix} {numCities : Nat} :
    ∀ fuel mask pos dp v dp' log,
      tsp fuel mask pos dist dp numCities = .ok (v, dp', log) → CallsPost numCities mask log := by
  apply tsp_ind (fun m _ _ _ _ l => CallsPost numCities m l)
  · intro mask pos dp d _ _ m p m' p' h
    cases h
  · intro mask pos dp v _ _ _ m p m' p' h
    cases h
  · intro mask pos dp result dp1 log old dp2 _ _ hloop _ _ m p m' p' hmem
    simp only [List.mem_append, List.mem_singleton] at hmem
    rcases hmem with hmem | hmem
    · rcases loop_calls (LoopRun_mono (fun _ _ _ _ _ _ h => h.2) hloop)
        (fun c hc => List.mem_range.1 hc) m p m' p' hmem with h | h
      · cases h
      · exact h
    · cases hmem

/-! ## Orderings of the unvisited cities and the cost of a walk -/

theorem mem_unvisited {mask numCities c : Nat} :
    c ∈ unvisited mask numCities ↔ c < numCities ∧ mask.testBit c = false := by
  simp [unvisited, and_shift_eq_zero]

theorem unvisited_nodup (mask numCities : Nat) : (unvisited mask numCities).Nodup :=
  (List.nodup_range numCities).filter _

theorem unvisited_or_shift {mask numCities c : Nat} :
    unvisited (mask ||| (1 <<< c)) numCities = (unvisited mask numCities).erase c := by
  rw [(unvisited_nodup mask numCities).erase_eq_filter]
  unfold unvisited
  rw [List.filter_filter]
  apply List.filter_congr
  intro x _
  by_cases hx : x = c
  · subst hx
    have h1 : ¬ ((mask ||| (1 <<< x)) &&& (1 <<< x) = 0) := by
      rw [and_shift_eq_zero, testBit_or_shift]; simp
    simp [h1]
  · have h2 : ((mask ||| (1 <<< c)) &&& (1 <<< x) = 0) ↔ (mask &&& (1 <<< x) = 0) := by
      rw [and_shift_eq_zero, and_shift_eq_zero, testBit_or_shift]
      have : ¬ c = x := fun h => hx h.symm
      simp [this]
    simp [h2, hx]

theorem perm_cons_unvisited {mask numCities c : Nat} (hc : c < numCities)
    (hbit : mask.testBit c = false) :
    (c :: unvisited (mask ||| (1 <<< c)) numCities).Perm (unvisited mask numCities) := by
  rw [unvisited_or_shift]
  exact (List.perm_cons_erase (mem_unvisited.2 ⟨hc, hbit⟩)).symm

theorem perm_tail_unvisited {mask numCities c : Nat} {order : List Nat}
    (h : (c :: order).Perm (unvisited mask numCities)) :
    c < numCities ∧ mask.testBit c = false ∧
      order.Perm (unvisited (mask ||| (1 <<< c)) numCities) := by
  have hmem : c ∈ unvisited mask numCities := h.subset (List.mem_cons_self _ _)
  obtain ⟨hc, hbit⟩ := mem_unvisited.1 hmem
  refine ⟨hc, hbit, ?_⟩
  exact List.Perm.cons_inv (h.trans (perm_cons_unvisited hc hbit).symm)

theorem unvisited_ne_nil {mask numCities : Nat} (hm : mask < 2 ^ numCities)
    (hfull : mask ≠ (1 <<< numCities) - 1) : unvisited mask numCities ≠ [] := by
  intro hnil
  apply hfull
  apply eq_full_of_bits hm
  intro c hc
  by_contra hbit
  have : c ∈ unvisited mask numCities := mem_unvisited.2 ⟨hc, by simpa using hbit⟩
  rw [hnil] at this
  cases this

theorem unvisited_full (numCities : Nat) : unvisited ((1 <<< numCities) - 1) numCities = [] := by
  apply List.eq_nil_iff_forall_not_mem.2
  intro c hc
  obtain ⟨h1, h2⟩ := mem_unvisited.1 hc
  rw [full_testBit] at h2
  simp [h1] at h2

theorem pathCost_eq_sum (dist : Matrix) (pos : Nat) (order : List Nat) :
    pathCost dist pos order = ((edges pos order).map (fun c => entry dist c.1 c.2)).sum := by
  induction order generalizing pos with
  | nil => simp [pathCost, edges]
  | cons c cs ih => simp [pathCost, edges, ih]

theorem edges_length (pos : Nat) (order : List Nat) :
    (edges pos order).length = order.length + 1 := by
  induction order generalizing pos with
  | nil => rfl
  | cons c cs ih => simp [edges, ih]

theorem edges_fst (pos : Nat) (order : List Nat) :
    (edges pos order).map Prod.fst = pos :: order := by
  induction order generalizing pos with
  | nil => rfl
  | cons c cs ih => simp [edges, ih]

theorem edges_snd_mem {pos : Nat} {order : List Nat} {e : Nat × Nat} (h : e ∈ edges pos order) :
    e.2 = 0 ∨ e.2 ∈ order := by
  induction order generalizing pos with
  | nil =>
    simp only [edges, List.mem_singleton] at h
    subst h
    exact Or.inl rfl
  | cons c cs ih =>
    simp only [edges, List.mem_cons] at h
    rcases h with rfl | h
    · exact Or.inr (List.mem_cons_self _ _)
    · rcases ih h with h | h
      · exact Or.inl h
      · exact Or.inr (List.mem_cons_of_mem _ h)

theorem pathCost_nonneg {dist : Matrix} {numCities : Nat} (hnn : NonNeg dist numCities)
    (h0 : 0 < numCities) {pos : Nat} {order : List Nat} (hpos : pos < numCities)
    (hlt : ∀ c ∈ order, c < numCities) : 0 ≤ pathCost dist pos order := by
  induction order generalizing pos with
  | nil => exact hnn _ _ hpos h0
  | cons c cs ih =>
    have hc := hlt c (List.mem_cons_self _ _)
    have := ih hc (fun x hx => hlt x (List.mem_cons_of_mem _ hx))
    have := hnn pos c hpos hc
    simp only [pathCost]
    omega

/-- Under `SumsBelowINF` and `NonNeg`, the entries at up to `numCities`
distinct cells add up to less than `INF`. -/
theorem sum_cells_lt_INF {dist : Matrix} {numCities : Nat} (hnn : NonNeg dist numCities)
    (hsum : SumsBelowINF dist numCities) (h0 : 0 < numCities) {cells : List (Nat × Nat)}
    (hnd : cells.Nodup) (hlen : cells.length ≤ numCities)
    (hin : ∀ c ∈ cells, c.1 < numCities ∧ c.2 < numCities) :
    (cells.map (fun c => entry dist c.1 c.2)).sum < INF := by
  classical
  have hsub : cells.toFinset ⊆ Finset.range numCities ×ˢ Finset.range numCities := by
    intro c hc
    have := hin c (List.mem_toFinset.1 hc)
    simp [this.1, this.2]
  have hcard : cells.toFinset.card ≤ numCities := by
    rw [List.toFinset_card_of_nodup hnd]; exact hlen
  have hgrid : numCities ≤ (Finset.range numCities ×ˢ Finset.range numCities).card := by
    rw [Finset.card_product, Finset.card_range]
    exact Nat.le_mul_of_pos_left _ h0
  obtain ⟨u, hsu, hut, hu⟩ := Finset.exists_subsuperset_card_eq hsub hcard hgrid
  have hbig := hsum u.toList (Finset.nodup_toList u) (by rw [Finset.length_toList]; exact hu)
    (by
      intro c hc
      have := hut (Finset.mem_toList.1 hc)
      simpa using this)
  rw [Finset.sum_to_list] at hbig
  rw [← List.sum_toFinset _ hnd]
  refine lt_of_le_of_lt (Finset.sum_le_sum_of_subset_of_nonneg hsu ?_) hbig
  intro c hc _
  have := hut hc
  simp only [Finset.mem_product, Finset.mem_range] at this
  exact hnn _ _ this.1 this.2

theorem pathCost_lt_INF {dist : Matrix} {numCities : Nat} (hnn : NonNeg dist numCities)
    (hsum : SumsBelowINF dist numCities) {mask pos : Nat} {order : List Nat}
    (hpos : pos < numCities) (hbit : mask.testBit pos = true)
    (hperm : order.Perm (unvisited mask numCities)) : pathCost dist pos order < INF := by
  classical
  have h0 : 0 < numCities := Nat.lt_of_le_of_lt (Nat.zero_le _) hpos
  have hlt : ∀ c ∈ order, c < numCities := fun c hc => (mem_unvisited.1 (hperm.subset hc)).1
  have hnotin : pos ∉ order := by
    intro h
    have := (mem_unvisited.1 (hperm.subset h)).2
    rw [hbit] at this
    cases this
  have hnd : (pos :: order).Nodup :=
    List.nodup_cons.2 ⟨hnotin, hperm.nodup_iff.2 (unvisited_nodup _ _)⟩
  have hall : ∀ c ∈ pos :: order, c < numCities := by
    intro c hc
    rcases List.mem_cons.1 hc with rfl | hc
    · exact hpos
    · exact hlt c hc
  have hlen : (pos :: order).length ≤ numCities := by
    have hsub : (pos :: order).toFinset ⊆ Finset.range numCities := by
      intro c hc
      exact Finset.mem_range.2 (hall c (List.mem_toFinset.1 hc))
    have := Finset.card_le_card hsub
    rwa [List.toFinset_card_of_nodup hnd, Finset.card_range] at this
  rw [pathCost_eq_sum]
  apply sum_cells_lt_INF hnn hsum h0
  · apply List.Nodup.of_map Prod.fst
    rw [edges_fst]
    exact hnd
  · rw [edges_length]
    simpa using hlen
  · intro e he
    constructor
    · apply hall
      rw [← edges_fst]
      exact List.mem_map_of_mem Prod.fst he
    · rcases edges_snd_mem he with h | h
      · rw [h]; exact h0
      · exact hlt _ h

/-! ## The value computed by a run -/

theorem wrap32_eq {x : Int} (h0 : 0 ≤ x) (h1 : x < INF) : wrap32 x = x := by
  unfold INF at h1
  unfold wrap32
  omega

theorem entry_of_get2 {dist : Matrix} {i j : Nat} {d : Int} (h : get2 dist i j = some d) :
    entry dist i j = d := by
  simp [entry, h]

theorem isOpt_nonneg {dist : Matrix} {numCities : Nat} (hnn : NonNeg dist numCities)
    {mask pos : Nat} {v : Int} (hpos : pos < numCities) (h : IsOpt dist numCities mask pos v) :
    0 ≤ v := by
  obtain ⟨⟨order, hperm, rfl⟩, _⟩ := h
  exact pathCost_nonneg hnn (Nat.lt_of_le_of_lt (Nat.zero_le _) hpos) hpos
    (fun c hc => (mem_unvisited.1 (hperm.subset hc)).1)

theorem isOpt_unique {dist : Matrix} {numCities mask pos : Nat} {v w : Int}
    (hv : IsOpt dist numCities mask pos v) (hw : IsOpt dist numCities mask pos w) : v = w := by
  obtain ⟨⟨o1, hp1, h1⟩, hv2⟩ := hv
  obtain ⟨⟨o2, hp2, h2⟩, hw2⟩ := hw
  have := hv2 o2 hp2
  have := hw2 o1 hp1
  omega

theorem loop_value {dist : Matrix} {numCities : Nat} (hnn : NonNeg dist numCities)
    (hsum : SumsBelowINF dist numCities) {mask pos : Nat} (hm : mask < 2 ^ numCities)
    (hpos : pos < numCities) (hbit : mask.testBit pos = true)
    {cities : List Nat} {result : Int} {dp : Matrix} {log : List Event}
    {result' : Int} {dp' : Matrix} {log' : List Event}
    (h : LoopRun dist (fun m p t v t' l => Ran dist numCities m p t v t' l ∧
      ValuePost dist numCities m p t v t' l) mask pos cities result dp log result' dp' log')
    (hc : ∀ c ∈ cities, c < numCities) (hcons : Consistent dist numCities dp) :
    Consistent dist numCities dp' ∧ result' ≤ result ∧
    (∀ c ∈ cities, mask.testBit c = false → ∀ order,
      order.Perm (unvisited (mask ||| (1 <<< c)) numCities) →
      result' ≤ pathCost dist pos (c :: order)) ∧
    (result' = result ∨
      ∃ order, order.Perm (unvisited mask numCities) ∧ result' = pathCost dist pos order) ∧
    (∀ m p old new, Event.store m p old new ∈ log' →
      Event.store m p old new ∈ log ∨ IsOpt dist numCities m p new) ∧
    (∀ a b, Event.add a b ∈ log' → Event.add a b ∈ log ∨ (0 ≤ a ∧ 0 ≤ b ∧ a + b < INF)) ∧
    (Closed numCities dp → Closed numCities dp' ∧
      ∀ c ∈ cities, mask.testBit c = false →
        mask ||| (1 <<< c) = (1 <<< numCities) - 1 ∨
        ∃ w, get2 dp' (mask ||| (1 <<< c)) c = some w ∧ w ≠ -1) := by
  induction h with
  | done result dp log =>
    refine ⟨hcons, le_refl _, ?_, Or.inl rfl, fun _ _ _ _ h => Or.inl h, fun _ _ h => Or.inl h,
      fun hcl => ⟨hcl, ?_⟩⟩
    · intro c hc; cases hc
    · intro c hc; cases hc
  | skip city rest result dp log result' dp' log' hset _ ih =>
    have hset' : mask.testBit city = true := by
      by_contra hne
      exact hset (and_shift_eq_zero.2 (by simpa using hne))
    obtain ⟨h1, h2, h3, h4, h5, h6, h7⟩ := ih (fun c h => hc c (List.mem_cons_of_mem _ h)) hcons
    refine ⟨h1, h2, ?_, h4, h5, h6, fun hcl => ⟨(h7 hcl).1, ?_⟩⟩
    · intro c hcmem hcbit
      rcases List.mem_cons.1 hcmem with rfl | hcmem
      · rw [hset'] at hcbit; cases hcbit
      · exact h3 c hcmem hcbit
    · intro c hcmem hcbit
      rcases List.mem_cons.1 hcmem with rfl | hcmem
      · rw [hset'] at hcbit; cases hcbit
      · exact (h7 hcl).2 c hcmem hcbit
  | visit city rest result dp log d r dp1 log1 result' dp' log' hclr hd hcall hrest ih =>
    have hcity : city < numCities := hc city (List.mem_cons_self _ _)
    have hclear : mask.testBit city = false := and_shift_eq_zero.1 hclr
    have hm' : mask ||| (1 <<< city) < 2 ^ numCities := or_shift_lt hm hcity
    have hbit' : (mask ||| (1 <<< city)).testBit city = true := by
      rw [testBit_or_shift]; simp
    obtain ⟨hran, hpost⟩ := hcall
    obtain ⟨hopt, hcons1, hstores, hadds, hclosed⟩ := hpost hm' hcity hbit' hcons
    obtain ⟨fuel, hrun⟩ := hran
    have hd' : entry dist pos city = d := entry_of_get2 hd
    obtain ⟨⟨o0, hperm0, hr0⟩, hmin⟩ := hopt
    have hperm1 : (city :: o0).Perm (unvisited mask numCities) :=
      (List.Perm.cons city hperm0).trans (perm_cons_unvisited hcity hclear)
    have hcost : d + r = pathCost dist pos (city :: o0) := by
      simp only [pathCost, hd', hr0]
    have hlt : d + r < INF := by
      rw [hcost]; exact pathCost_lt_INF hnn hsum hpos hbit hperm1
    have hd0 : 0 ≤ d := by rw [← hd']; exact hnn _ _ hpos hcity
    have hr0' : 0 ≤ r := isOpt_nonneg hnn hcity ⟨⟨o0, hperm0, hr0⟩, hmin⟩
    have hwrap : wrap32 (d + r) = d + r := wrap32_eq (by omega) hlt
    rw [hwrap] at ih hrest
    obtain ⟨h1, h2, h3, h4, h5, h6, h7⟩ := ih (fun c h => hc c (List.mem_cons_of_mem _ h)) hcons1
    have hkeep := (loop_frame (LoopRun_mono (fun m p t v t' l h =>
      (by obtain ⟨f, hf⟩ := h.1; exact tsp_frame f m p t v t' l hf :
        FramePost m p t t' l)) hrest)).2.2.1
    refine ⟨h1, le_trans h2 (min_le_left _ _), ?_, ?_, ?_, ?_, ?_⟩
    · intro c hcmem hcbit order hperm
      rcases List.mem_cons.1 hcmem with rfl | hcmem
      · have := hmin order hperm
        have := min_le_right result (d + r)
        simp only [pathCost, hd']
        omega
      · exact h3 c hcmem hcbit order hperm
    · rcases h4 with h4 | h4
      · rcases min_choice result (d + r) with hmin' | hmin'
        · exact Or.inl (h4.trans hmin')
        · exact Or.inr ⟨city :: o0, hperm1, by rw [h4, hmin', hcost]⟩
      · exact Or.inr h4
    · intro m p old new hmem
      rcases h5 m p old new hmem with hmem | h
      · simp only [List.mem_append, List.mem_cons, List.mem_singleton, List.mem_nil_iff,
          or_false] at hmem
        rcases hmem with (hmem | hmem | hmem) | hmem
        · exact Or.inl hmem
        · cases hmem
        · exact Or.inr (hstores m p old new hmem)
        · cases hmem
      · exact Or.inr h
    · intro a b hmem
      rcases h6 a b hmem with hmem | h
      · simp only [List.mem_append, List.mem_cons, List.mem_singleton, List.mem_nil_iff,
          or_false] at hmem
        rcases hmem with (hmem | hmem | hmem) | hmem
        · exact Or.inl hmem
        · cases hmem
        · exact Or.inr (hadds a b hmem)
        · cases hmem
          exact Or.inr ⟨hd0, hr0', hlt⟩
      · exact Or.inr h
    · intro hcl
      obtain ⟨hcl1, hfilled⟩ := hclosed hcl
      obtain ⟨hcl', hrestfilled⟩ := h7 hcl1
      refine ⟨hcl', ?_⟩
      intro c hcmem hcbit
      rcases List.mem_cons.1 hcmem with rfl | hcmem
      · by_cases hfull : mask ||| (1 <<< c) = (1 <<< numCities) - 1
        · exact Or.inl hfull
        · obtain ⟨w, hw, hne⟩ := hfilled hfull
          exact Or.inr ⟨w, hkeep _ _ w hw hne, hne⟩
      · exact hrestfilled c hcmem hcbit

theorem filled_set2 {dp1 dp2 : Matrix} {mask pos i j : Nat} {result w : Int}
    (hset : set2 dp1 mask pos result = some dp2) (hres : result ≠ -1)
    (hw : get2 dp1 i j = some w) (hne : w ≠ -1) :
    ∃ w', get2 dp2 i j = some w' ∧ w' ≠ -1 := by
  rw [get2_set2 hset]
  by_cases h : i = mask ∧ j = pos
  · rw [if_pos h]; exact ⟨result, rfl, hres⟩
  · rw [if_neg h]; exact ⟨w, hw, hne⟩

theorem tsp_value {dist : Matrix} {numCities : Nat} (hnn : NonNeg dist numCities)
    (hsum : SumsBelowINF dist numCities) :
    ∀ fuel mask pos dp v dp' log,
      tsp fuel mask pos dist dp numCities = .ok (v, dp', log) →
      ValuePost dist numCities mask pos dp v dp' log := by
  apply tsp_ind (fun m p t v t' l => ValuePost dist numCities m p t v t' l)
  · intro mask pos dp d hfull hd _ _ _ hcons
    refine ⟨?_, hcons, (fun _ _ _ _ h => by cases h), (fun _ _ h => by cases h),
      fun hcl => ⟨hcl, fun h => absurd hfull h⟩⟩
    subst hfull
    rw [IsOpt, unvisited_full]
    refine ⟨⟨[], List.Perm.refl _, ?_⟩, ?_⟩
    · simp [pathCost, entry_of_get2 hd]
    · intro order hperm
      rw [List.Perm.eq_nil hperm]
      simp [pathCost, entry_of_get2 hd]
  · intro mask pos dp v _ hv hne _ _ _ hcons
    exact ⟨hcons _ _ _ hv hne, hcons, (fun _ _ _ _ h => by cases h), (fun _ _ h => by cases h),
      fun hcl => ⟨hcl, fun _ => ⟨v, hv, hne⟩⟩⟩
  · intro mask pos dp result dp1 log old dp2 hfull _ hloop _ hset hm hpos hbit hcons
    obtain ⟨h1, h2, h3, h4, h5, h6, h7⟩ :=
      loop_value hnn hsum hm hpos hbit hloop (fun c hc => List.mem_range.1 hc) hcons
    have hne := unvisited_ne_nil hm hfull
    have hopt : IsOpt dist numCities mask pos result := by
      have hle : ∀ order, order.Perm (unvisited mask numCities) →
          result ≤ pathCost dist pos order := by
        intro order hperm
        cases order with
        | nil => exact absurd (List.Perm.nil_eq hperm).symm hne
        | cons c rest =>
          obtain ⟨hc, hcb, hrest⟩ := perm_tail_unvisited hperm
          exact h3 c (List.mem_range.2 hc) hcb rest hrest
      refine ⟨?_, hle⟩
      rcases h4 with h4 | h4
      · have := hle _ (List.Perm.refl _)
        have := pathCost_lt_INF hnn hsum hpos hbit (List.Perm.refl (unvisited mask numCities))
        omega
      · exact h4
    have hres : result ≠ -1 := by
      have := isOpt_nonneg hnn hpos hopt
      omega
    refine ⟨hopt, ?_, ?_, ?_, ?_⟩
    · intro m p w hw hwne
      rw [get2_set2 hset] at hw
      by_cases h : m = mask ∧ p = pos
      · rw [if_pos h] at hw
        obtain ⟨rfl, rfl⟩ := h
        cases hw
        exact hopt
      · rw [if_neg h] at hw
        exact h1 m p w hw hwne
    · intro m p old' new hmem
      simp only [List.mem_append, List.mem_singleton] at hmem
      rcases hmem with hmem | hmem
      · rcases h5 m p old' new hmem with h | h
        · cases h
        · exact h
      · cases hmem
        exact hopt
    · intro a b hmem
      simp only [List.mem_append, List.mem_singleton] at hmem
      rcases hmem with hmem | hmem
      · rcases h6 a b hmem with h | h
        · cases h
        · exact h
      · cases hmem
    · intro hcl
      obtain ⟨hcl1, hchildren⟩ := h7 hcl
      refine ⟨?_, fun _ => ⟨result, by rw [get2_set2 hset]; simp, hres⟩⟩
      intro m p w hw hwne c hc hcb
      rw [get2_set2 hset] at hw
      by_cases h : m = mask ∧ p = pos
      · obtain ⟨rfl, rfl⟩ := h
        rcases hchildren c (List.mem_range.2 hc) hcb with hf | ⟨w', hw', hne'⟩
        · exact Or.inl hf
        · exact Or.inr (filled_set2 hset hres hw' hne')
      · rw [if_neg h] at hw
        rcases hcl1 m p w hw hwne c hc hcb with hf | ⟨w', hw', hne'⟩
        · exact Or.inl hf
        · exact Or.inr (filled_set2 hset hres hw' hne')

/-! ## The fresh memo table and the brute-force minimum -/

theorem freshTable_shaped (numCities : Nat) :
    Shaped (freshTable numCities) (1 <<< numCities) numCities := by
  refine ⟨by simp [freshTable], ?_⟩
  intro row hrow
  rw [freshTable] at hrow
  rw [List.eq_of_mem_replicate hrow]
  simp

theorem get2_freshTable {numCities m p : Nat} {w : Int}
    (h : get2 (freshTable numCities) m p = some w) : w = -1 := by
  unfold get2 at h
  split at h
  · cases h
  · rename_i row hrow
    have hrow' := List.eq_of_mem_replicate (List.getElem?_mem hrow)
    subst hrow'
    exact List.eq_of_mem_replicate (List.getElem?_mem h)

theorem freshTable_consistent (dist : Matrix) (numCities : Nat) :
    Consistent dist numCities (freshTable numCities) :=
  fun _ _ _ hw hne => absurd (get2_freshTable hw) hne

theorem freshTable_closed (numCities : Nat) : Closed numCities (freshTable numCities) :=
  fun _ _ _ hw hne => absurd (get2_freshTable hw) hne

theorem unvisited_one {numCities : Nat} (h : 1 ≤ numCities) :
    unvisited 1 numCities = List.range' 1 (numCities - 1) := by
  obtain ⟨n, rfl⟩ : ∃ n, numCities = n + 1 := ⟨numCities - 1, by omega⟩
  rw [unvisited, List.range_eq_range', List.range'_succ, Nat.add_sub_cancel]
  have h0 : ¬ (1 &&& (1 <<< 0) = 0) := by decide
  rw [List.filter_cons_of_neg (by simp)]
  apply List.filter_eq_self.2
  intro c hc
  have hc1 : 1 ≤ c := (List.mem_range'_1.1 hc).1
  have : 1 &&& (1 <<< c) = 0 := by
    rw [and_shift_eq_zero]
    exact Nat.testBit_lt_two_pow (Nat.one_lt_two_pow (by omega))
  simp [this]

theorem bruteForce_of_isOpt {dist : Matrix} {numCities : Nat} {v : Int}
    (h1 : 1 ≤ numCities) (h : IsOpt dist numCities 1 0 v) : bruteForce dist numCities = some v := by
  rw [IsOpt, unvisited_one h1] at h
  obtain ⟨⟨order, hperm, hv⟩, hmin⟩ := h
  unfold bruteForce
  haveI : Std.Antisymm (fun (a b : Int) => a ≤ b) := ⟨fun h1 h2 => Int.le_antisymm h1 h2⟩
  rw [List.min?_eq_some_iff (fun a => le_refl a) (fun a b => min_choice a b)
    (fun a b c => le_min_iff)]
  constructor
  · exact List.mem_map.2 ⟨order, List.mem_permutations.2 hperm, hv.symm⟩
  · intro b hb
    obtain ⟨o, ho, rfl⟩ := List.mem_map.1 hb
    exact hmin o (List.mem_permutations.1 ho)

/-- A bound `b` on the entries with `numCities * b < INF` gives `SumsBelowINF`. -/
theorem sumsBelowINF_of_bound {dist : Matrix} {numCities : Nat} (b : Int)
    (hb : ∀ i j, i < numCities → j < numCities → entry dist i j ≤ b)
    (hlt : (numCities : Int) * b < INF) : SumsBelowINF dist numCities := by
  intro cells _ hlen hin
  have := List.sum_le_card_nsmul (cells.map (fun c => entry dist c.1 c.2)) b (by
    intro x hx
    obtain ⟨c, hc, rfl⟩ := List.mem_map.1 hx
    exact hb _ _ (hin c hc).1 (hin c hc).2)
  rw [List.length_map, hlen, nsmul_eq_mul] at this
  exact lt_of_le_of_lt this hlt

/-- C1. For `2 ≤ N ≤ 25` and an `N × N` matrix of non-negative weights with
zero diagonal whose sums of `N` entries stay below `INF`, the call
`tsp(1, 0, dist, dp, N)` on a table of `2^N × N` entries `-1` returns, for
every fuel of at least `2^N - 1`, exactly the brute-force minimum over all
`(N-1)!` orderings of the cities `1 .. N-1` of the cost of the closed tour from
city 0: the value is non-negative, at most the cost of every such tour, and the
cost of one of them. -/
theorem tsp_returns_optimal_tour (numCities : Nat) (dist : Matrix)
    (hN : 2 ≤ numCities) (_hN25 : numCities ≤ 25)
    (hshape : Shaped dist numCities numCities) (hnn : NonNeg dist numCities)
    (_hdiag : ZeroDiag dist numCities) (hsum : SumsBelowINF dist numCities)
    (fuel : Nat) (hfuel : 2 ^ numCities - 1 ≤ fuel) :
    ∃ v dp' log, tsp fuel 1 0 dist (freshTable numCities) numCities = .ok (v, dp', log) ∧
      bruteForce dist numCities = some v ∧
      (List.range' 1 (numCities - 1)).permutations.length = (numCities - 1).factorial ∧
      0 ≤ v ∧
      (∀ order, order.Perm (List.range' 1 (numCities - 1)) → v ≤ tourCost dist order) ∧
      (∃ order, order.Perm (List.range' 1 (numCities - 1)) ∧ v = tourCost dist order) := by
  have h1 : 1 < 2 ^ numCities := Nat.one_lt_two_pow (by omega)
  obtain ⟨v, dp', log, hrun⟩ := tsp_total hshape fuel 1 0 (freshTable numCities)
    (freshTable_shaped numCities) h1 (by omega) hfuel
  obtain ⟨hopt, _⟩ := tsp_value hnn hsum fuel 1 0 _ v dp' log hrun h1 (by omega)
    (by decide) (freshTable_consistent dist numCities)
  refine ⟨v, dp', log, hrun, bruteForce_of_isOpt (by omega) hopt, ?_,
    isOpt_nonneg hnn (by omega) hopt, ?_, ?_⟩
  · rw [List.length_permutations, List.length_range']
  · intro order hperm
    rw [← unvisited_one (by omega : 1 ≤ numCities)] at hperm
    exact hopt.2 order hperm
  · obtain ⟨order, hperm, hv⟩ := hopt.1
    rw [unvisited_one (by omega : 1 ≤ numCities)] at hperm
    exact ⟨order, hperm, hv⟩

/-- Witness for C1: `N = 2`, `dist = [[0,5],[7,0]]` satisfies the hypotheses,
and the call returns 12, the brute-force minimum. -/
theorem tsp_returns_optimal_tour_witness :
    (Shaped [[0, 5], [7, 0]] 2 2 ∧ NonNeg [[0, 5], [7, 0]] 2 ∧ ZeroDiag [[0, 5], [7, 0]] 2 ∧
      SumsBelowINF [[0, 5], [7, 0]] 2) ∧
    (∃ v dp' log, tsp 3 1 0 [[0, 5], [7, 0]] (freshTable 2) 2 = .ok (v, dp', log) ∧
      bruteForce [[0, 5], [7, 0]] 2 = some v ∧
      (List.range' 1 (2 - 1)).permutations.length = (2 - 1).factorial ∧
      0 ≤ v ∧
      (∀ order, order.Perm (List.range' 1 (2 - 1)) → v ≤ tourCost [[0, 5], [7, 0]] order) ∧
      (∃ order, order.Perm (List.range' 1 (2 - 1)) ∧ v = tourCost [[0, 5], [7, 0]] order)) ∧
    (tsp 3 1 0 [[0, 5], [7, 0]] (freshTable 2) 2).map (fun r => r.1) = .ok 12 ∧
    bruteForce [[0, 5], [7, 0]] 2 = some 12 := by
  have hshape : Shaped [[0, 5], [7, 0]] 2 2 := ⟨rfl, by decide⟩
  have hnn : NonNeg [[0, 5], [7, 0]] 2 := by
    intro i j hi hj; interval_cases i <;> interval_cases j <;> decide
  have hdiag : ZeroDiag [[0, 5], [7, 0]] 2 := by
    intro i hi; interval_cases i <;> rfl
  have hsum : SumsBelowINF [[0, 5], [7, 0]] 2 :=
    sumsBelowINF_of_bound 7
      (by intro i j hi hj; interval_cases i <;> interval_cases j <;> decide) (by decide)
  have h := tsp_returns_optimal_tour 2 [[0, 5], [7, 0]] (by decide) (by decide)
    hshape hnn hdiag hsum 3 (by decide)
  refine ⟨⟨hshape, hnn, hdiag, hsum⟩, h, rfl, ?_⟩
  obtain ⟨v, dp', log, hrun, hbf, _⟩ := h
  have h12 : (tsp 3 1 0 [[0, 5], [7, 0]] (freshTable 2) 2).map (fun r => r.1) = .ok 12 := rfl
  rw [hrun] at h12
  have hv : v = 12 := by simpa [Except.map] using h12
  rw [hbf, hv]

/-! ## State well-formedness, termination and write-once entries -/

/-- C7. For `2 ≤ N ≤ 25`, an `N × N` matrix and a `2^N × N` table of arbitrary
contents, the call `tsp(1, 0, dist, dp, N)` returns without any access outside
`dist` or `dp`, the top-level state `(1, 0)` is well formed, and every call
`tsp(mask', pos')` made during the run has `1 ≤ mask' ≤ 2^N - 1`, `pos' < N`
and bits `0` and `pos'` set in `mask'`. -/
theorem tsp_states_well_formed (numCities : Nat) (dist dp : Matrix)
    (hN : 2 ≤ numCities) (_hN25 : numCities ≤ 25)
    (hdist : Shaped dist numCities numCities) (hdp : Shaped dp (1 <<< numCities) numCities)
    (fuel : Nat) (hfuel : 2 ^ numCities - 1 ≤ fuel) :
    ∃ v dp' log, tsp fuel 1 0 dist dp numCities = .ok (v, dp', log) ∧
      (1 ≤ 2 ^ numCities - 1 ∧ 0 < numCities ∧ (1 : Nat).testBit 0 = true) ∧
      ∀ m p m' p', Event.call m p m' p' ∈ log →
        1 ≤ m' ∧ m' ≤ 2 ^ numCities - 1 ∧ p' < numCities ∧
        m'.testBit 0 = true ∧ m'.testBit p' = true := by
  have h1 : 1 < 2 ^ numCities := Nat.one_lt_two_pow (by omega)
  obtain ⟨v, dp', log, hrun⟩ := tsp_total hdist fuel 1 0 dp hdp h1 (by omega) hfuel
  refine ⟨v, dp', log, hrun, ⟨by omega, by omega, by decide⟩, ?_⟩
  intro m p m' p' hmem
  obtain ⟨hsup, hlt, hp', hclr, rfl⟩ := tsp_calls fuel 1 0 dp v dp' log hrun m p m' p' hmem
  have hm : m < 2 ^ numCities := hlt h1
  have hm' := or_shift_lt hm hp'
  have hgt := lt_or_shift hclr
  refine ⟨by omega, by omega, hp', ?_, ?_⟩
  · rw [testBit_or_shift, hsup 0 (by decide)]; rfl
  · rw [testBit_or_shift]; simp

/-- Witness for C7: three cities, a table holding arbitrary values. -/
theorem tsp_states_well_formed_witness :
    (Shaped [[0, 5, 3], [7, 0, 1], [2, 2, 0]] 3 3 ∧
      Shaped [[4, 4, 4], [-1, 9, 9], [0, 0, 0], [-1, -1, 2], [1, 1, 1], [3, -1, -7], [5, 5, 5],
        [6, 6, 6]] (1 <<< 3) 3) ∧
    ∃ v dp' log, tsp 7 1 0 [[0, 5, 3], [7, 0, 1], [2, 2, 0]]
        [[4, 4, 4], [-1, 9, 9], [0, 0, 0], [-1, -1, 2], [1, 1, 1], [3, -1, -7], [5, 5, 5],
          [6, 6, 6]] 3 = .ok (v, dp', log) ∧
      (1 ≤ 2 ^ 3 - 1 ∧ 0 < 3 ∧ (1 : Nat).testBit 0 = true) ∧
      ∀ m p m' p', Event.call m p m' p' ∈ log →
        1 ≤ m' ∧ m' ≤ 2 ^ 3 - 1 ∧ p' < 3 ∧ m'.testBit 0 = true ∧ m'.testBit p' = true :=
  ⟨⟨⟨rfl, by decide⟩, ⟨rfl, by decide⟩⟩,
    tsp_states_well_formed 3 [[0, 5, 3], [7, 0, 1], [2, 2, 0]]
      [[4, 4, 4], [-1, 9, 9], [0, 0, 0], [-1, -1, 2], [1, 1, 1], [3, -1, -7], [5, 5, 5],
        [6, 6, 6]]
      (by decide) (by decide) ⟨rfl, by decide⟩ ⟨rfl, by decide⟩ 7 (by decide)⟩

/-- C8. For `1 ≤ N ≤ 25`, a mask with `mask ≤ 2^N - 1` and vectors of
arbitrary contents, the call `tsp(mask, pos, ...)` with fuel `2^N - mask`
does not run out of fuel; every recursive call of a run carries a mask that is
the caller's mask plus one bit `2^pos'`, `pos' < N`, that was clear in it, so it
is strictly greater, still at most `2^N - 1`, and the measure
`2^N - 1 - mask` strictly decreases; and on an `N × N` matrix and a
`2^N × N` table, for `pos < N`, the call returns a result. -/
theorem tsp_terminates (numCities : Nat) (dist dp : Matrix) (mask pos : Nat)
    (_hN1 : 1 ≤ numCities) (_hN25 : numCities ≤ 25) (hmask : mask ≤ 2 ^ numCities - 1)
    (fuel : Nat) (hfuel : 2 ^ numCities - mask ≤ fuel) :
    tsp fuel mask pos dist dp numCities ≠ .error .outOfFuel ∧
    (∀ v dp' log, tsp fuel mask pos dist dp numCities = .ok (v, dp', log) →
      ∀ m p m' p', Event.call m p m' p' ∈ log →
        m < m' ∧ m' ≤ 2 ^ numCities - 1 ∧ p' < numCities ∧ m.testBit p' = false ∧
        m' = m + 2 ^ p' ∧ 2 ^ numCities - 1 - m' < 2 ^ numCities - 1 - m) ∧
    (Shaped dist numCities numCities → Shaped dp (1 <<< numCities) numCities →
      pos < numCities → ∃ v dp' log, tsp fuel mask pos dist dp numCities = .ok (v, dp', log)) := by
  have hpow : 0 < 2 ^ numCities := Nat.two_pow_pos _
  have hm : mask < 2 ^ numCities := by omega
  refine ⟨tsp_fuel fuel mask pos dp hm hfuel, ?_, ?_⟩
  · intro v dp' log hrun m p m' p' hmem
    obtain ⟨_, hlt, hp', hclr, rfl⟩ := tsp_calls fuel mask pos dp v dp' log hrun m p m' p' hmem
    have hm1 := hlt hm
    have hm' := or_shift_lt hm1 hp'
    have hgt := lt_or_shift hclr
    exact ⟨hgt, by omega, hp', hclr, or_shift_eq_add hclr, by omega⟩
  · intro hdist hdp hpos
    exact tsp_total hdist fuel mask pos dp hdp hm hpos hfuel

/-- Witness for C8: the top-level call `tsp(1, 0, dist, dp, 3)` returns. -/
theorem tsp_terminates_witness :
    (1 ≤ 2 ^ 3 - 1 ∧ 2 ^ 3 - 1 ≤ 7) ∧
    tsp 7 1 0 [[0, 5, 3], [7, 0, 1], [2, 2, 0]] (freshTable 3) 3 ≠ .error .outOfFuel ∧
    (∀ v dp' log, tsp 7 1 0 [[0, 5, 3], [7, 0, 1], [2, 2, 0]] (freshTable 3) 3
        = .ok (v, dp', log) →
      ∀ m p m' p', Event.call m p m' p' ∈ log →
        m < m' ∧ m' ≤ 2 ^ 3 - 1 ∧ p' < 3 ∧ m.testBit p' = false ∧
        m' = m + 2 ^ p' ∧ 2 ^ 3 - 1 - m' < 2 ^ 3 - 1 - m) ∧
    (∃ v dp' log, tsp 7 1 0 [[0, 5, 3], [7, 0, 1], [2, 2, 0]] (freshTable 3) 3
        = .ok (v, dp', log)) :=
  ⟨⟨by decide, by decide⟩,
    (tsp_terminates 3 [[0, 5, 3], [7, 0, 1], [2, 2, 0]] (freshTable 3) 1 0
      (by decide) (by decide) (by decide) 7 (by decide)).1,
    (tsp_terminates 3 [[0, 5, 3], [7, 0, 1], [2, 2, 0]] (freshTable 3) 1 0
      (by decide) (by decide) (by decide) 7 (by decide)).2.1,
    (tsp_terminates 3 [[0, 5, 3], [7, 0, 1], [2, 2, 0]] (freshTable 3) 1 0
      (by decide) (by decide) (by decide) 7 (by decide)).2.2
      ⟨rfl, by decide⟩ ⟨rfl, by decide⟩ (by decide)⟩

/-- C9. For every call `tsp(mask, pos, dist, dp, N)` with `mask ≤ 2^N - 1`:
on an `N × N` matrix and a `2^N × N` table, with `pos < N`, the call returns;
and whenever it returns, each entry of `dp` that differs from `-1` before the
call holds the same value after it, and every assignment `dp[m][p] = ...` of
the run overwrote the value `-1`. -/
theorem tsp_write_once (numCities : Nat) (dist dp : Matrix) (mask pos : Nat)
    (hmask : mask ≤ 2 ^ numCities - 1) (fuel : Nat) (hfuel : 2 ^ numCities - mask ≤ fuel) :
    (Shaped dist numCities numCities → Shaped dp (1 <<< numCities) numCities →
      pos < numCities → ∃ v dp' log, tsp fuel mask pos dist dp numCities = .ok (v, dp', log)) ∧
    (∀ v dp' log, tsp fuel mask pos dist dp numCities = .ok (v, dp', log) →
      (∀ i j w, get2 dp i j = some w → w ≠ -1 → get2 dp' i j = some w) ∧
      (∀ m p old new, Event.store m p old new ∈ log → old = -1)) := by
  have hpow : 0 < 2 ^ numCities := Nat.two_pow_pos _
  refine ⟨fun hdist hdp hpos => tsp_total hdist fuel mask pos dp hdp (by omega) hpos hfuel, ?_⟩
  intro v dp' log hrun
  obtain ⟨_, _, hkeep, hst⟩ := tsp_frame fuel mask pos dp v dp' log hrun
  exact ⟨hkeep, hst⟩

/-- Witness for C9: a call in the middle of the state space, on a table that
already holds some values; the call returns. -/
theorem tsp_write_once_witness :
    (3 ≤ 2 ^ 3 - 1 ∧ 2 ^ 3 - 3 ≤ 5) ∧
    (∃ v dp' log, tsp 5 3 1 [[0, 5, 3], [7, 0, 1], [2, 2, 0]]
        [[4, 4, 4], [-1, 9, 9], [0, 0, 0], [-1, -1, 2], [1, 1, 1], [3, -1, -7], [5, 5, 5],
          [6, 6, 6]] 3 = .ok (v, dp', log)) ∧
    (∀ v dp' log, tsp 5 3 1 [[0, 5, 3], [7, 0, 1], [2, 2, 0]]
        [[4, 4, 4], [-1, 9, 9], [0, 0, 0], [-1, -1, 2], [1, 1, 1], [3, -1, -7], [5, 5, 5],
          [6, 6, 6]] 3 = .ok (v, dp', log) →
      (∀ i j w, get2 [[4, 4, 4], [-1, 9, 9], [0, 0, 0], [-1, -1, 2], [1, 1, 1], [3, -1, -7],
          [5, 5, 5], [6, 6, 6]] i j = some w → w ≠ -1 → get2 dp' i j = some w) ∧
      (∀ m p old new, Event.store m p old new ∈ log → old = -1)) :=
  ⟨⟨by decide, by decide⟩,
    (tsp_write_once 3 [[0, 5, 3], [7, 0, 1], [2, 2, 0]]
      [[4, 4, 4], [-1, 9, 9], [0, 0, 0], [-1, -1, 2], [1, 1, 1], [3, -1, -7], [5, 5, 5],
        [6, 6, 6]]
      3 1 (by decide) 5 (by decide)).1 ⟨rfl, by decide⟩ ⟨rfl, by decide⟩ (by decide),
    (tsp_write_once 3 [[0, 5, 3], [7, 0, 1], [2, 2, 0]]
      [[4, 4, 4], [-1, 9, 9], [0, 0, 0], [-1, -1, 2], [1, 1, 1], [3, -1, -7], [5, 5, 5],
        [6, 6, 6]]
      3 1 (by decide) 5 (by decide)).2⟩

/-! ## The addition on line 110 -/

/-- C3, counterexample. On the 2 × 2 matrix `[[0, 2147483647], [1, 0]]`
(non-negative 32-bit weights, zero diagonal) the run of `tsp(1, 0, dist, dp, 2)`
adds `2147483647 + 1`: the 32-bit sum wraps to `-2147483648`, which is returned
as the cost, and the exact sum is not below `INF`. -/
theorem tsp_addition_wraps :
    Shaped [[0, 2147483647], [1, 0]] 2 2 ∧ NonNeg [[0, 2147483647], [1, 0]] 2 ∧
    ZeroDiag [[0, 2147483647], [1, 0]] 2 ∧
    (∀ i j, i < 2 → j < 2 → entry [[0, 2147483647], [1, 0]] i j ≤ 2147483647) ∧
    tsp 3 1 0 [[0, 2147483647], [1, 0]] (freshTable 2) 2 =
      .ok (-2147483648, [[-1, -1], [-2147483648, -1], [-1, -1], [-1, -1]],
        [Event.call 1 0 3 1, Event.add 2147483647 1, Event.store 1 0 (-1) (-2147483648)]) ∧
    wrap32 (2147483647 + 1) ≠ 2147483647 + 1 ∧ ¬ ((2147483647 : Int) + 1 < INF) := by
  refine ⟨⟨rfl, by decide⟩, ?_, ?_, ?_, rfl, by decide, by decide⟩
  · intro i j hi hj; interval_cases i <;> interval_cases j <;> decide
  · intro i hi; interval_cases i <;> rfl
  · intro i j hi hj; interval_cases i <;> interval_cases j <;> decide

/-- C3, amended. For `2 ≤ N ≤ 25` and an `N × N` matrix of non-negative
weights with zero diagonal in which every sum of `N` entries is below `INF`,
the run of `tsp(1, 0, dist, dp, N)` on a fresh table returns, and every addition
`a + b` of line 110 has non-negative operands, does not wrap, and has a sum
strictly below `INF`. -/
theorem tsp_additions_exact (numCities : Nat) (dist : Matrix)
    (hN : 2 ≤ numCities) (_hN25 : numCities ≤ 25)
    (hshape : Shaped dist numCities numCities) (hnn : NonNeg dist numCities)
    (_hdiag : ZeroDiag dist numCities) (hsum : SumsBelowINF dist numCities)
    (fuel : Nat) (hfuel : 2 ^ numCities - 1 ≤ fuel) :
    ∃ v dp' log, tsp fuel 1 0 dist (freshTable numCities) numCities = .ok (v, dp', log) ∧
      ∀ a b, Event.add a b ∈ log →
        0 ≤ a ∧ 0 ≤ b ∧ wrap32 (a + b) = a + b ∧ a + b < INF := by
  have h1 : 1 < 2 ^ numCities := Nat.one_lt_two_pow (by omega)
  obtain ⟨v, dp', log, hrun⟩ := tsp_total hshape fuel 1 0 (freshTable numCities)
    (freshTable_shaped numCities) h1 (by omega) hfuel
  obtain ⟨_, _, _, hadds, _⟩ := tsp_value hnn hsum fuel 1 0 _ v dp' log hrun h1 (by omega)
    (by decide) (freshTable_consistent dist numCities)
  refine ⟨v, dp', log, hrun, ?_⟩
  intro a b hmem
  obtain ⟨ha, hb, hlt⟩ := hadds a b hmem
  exact ⟨ha, hb, wrap32_eq (by omega) hlt, hlt⟩

/-- Witness for the amended C3. -/
theorem tsp_additions_exact_witness :
    (Shaped [[0, 5, 3], [7, 0, 1], [2, 2, 0]] 3 3 ∧ NonNeg [[0, 5, 3], [7, 0, 1], [2, 2, 0]] 3 ∧
      ZeroDiag [[0, 5, 3], [7, 0, 1], [2, 2, 0]] 3 ∧
      SumsBelowINF [[0, 5, 3], [7, 0, 1], [2, 2, 0]] 3) ∧
    ∃ v dp' log, tsp 7 1 0 [[0, 5, 3], [7, 0, 1], [2, 2, 0]] (freshTable 3) 3
        = .ok (v, dp', log) ∧
      ∀ a b, Event.add a b ∈ log →
        0 ≤ a ∧ 0 ≤ b ∧ wrap32 (a + b) = a + b ∧ a + b < INF := by
  have hshape : Shaped [[0, 5, 3], [7, 0, 1], [2, 2, 0]] 3 3 := ⟨rfl, by decide⟩
  have hnn : NonNeg [[0, 5, 3], [7, 0, 1], [2, 2, 0]] 3 := by
    intro i j hi hj; interval_cases i <;> interval_cases j <;> decide
  have hdiag : ZeroDiag [[0, 5, 3], [7, 0, 1], [2, 2, 0]] 3 := by
    intro i hi; interval_cases i <;> rfl
  have hsum : SumsBelowINF [[0, 5, 3], [7, 0, 1], [2, 2, 0]] 3 :=
    sumsBelowINF_of_bound 7
      (by intro i j hi hj; interval_cases i <;> interval_cases j <;> decide) (by decide)
  exact ⟨⟨hshape, hnn, hdiag, hsum⟩,
    tsp_additions_exact 3 [[0, 5, 3], [7, 0, 1], [2, 2, 0]] (by decide) (by decide)
      hshape hnn hdiag hsum 7 (by decide)⟩

/-! ## Memo reuse -/

theorem get2_resetEntries (clear : Nat → Nat → Bool) (dp : Matrix) (m p : Nat) :
    get2 (resetEntries clear dp) m p =
      (get2 dp m p).map (fun w => if clear m p then -1 else w) := by
  unfold get2 resetEntries
  rw [List.getElem?_mapIdx]
  cases dp[m]? with
  | none => rfl
  | some row => simp [List.getElem?_mapIdx]

theorem resetEntries_shaped {clear : Nat → Nat → Bool} {dp : Matrix} {rows cols : Nat}
    (h : Shaped dp rows cols) : Shaped (resetEntries clear dp) rows cols := by
  refine ⟨by rw [resetEntries, List.length_mapIdx]; exact h.1, ?_⟩
  intro row hrow
  rw [resetEntries, List.mem_mapIdx] at hrow
  obtain ⟨i, hi, rfl⟩ := hrow
  rw [List.length_mapIdx]
  exact h.2 _ (List.getElem_mem _)

theorem resetEntries_consistent {dist : Matrix} {numCities : Nat} {clear : Nat → Nat → Bool}
    {dp : Matrix} (h : Consistent dist numCities dp) :
    Consistent dist numCities (resetEntries clear dp) := by
  intro m p w hw hne
  rw [get2_resetEntries] at hw
  cases hdp : get2 dp m p with
  | none => rw [hdp] at hw; cases hw
  | some w0 =>
    rw [hdp] at hw
    simp only [Option.map_some', Option.some.injEq] at hw
    by_cases hc : clear m p = true
    · rw [if_pos hc] at hw; exact absurd hw.symm hne
    · rw [if_neg hc] at hw
      subst hw
      exact h m p w0 hdp hne

theorem reach_filled {numCities : Nat} {dp : Matrix} (hcl : Closed numCities dp)
    (hroot : (1 : Nat) = (1 <<< numCities) - 1 ∨ ∃ w, get2 dp 1 0 = some w ∧ w ≠ -1)
    {m p : Nat} (h : Reach numCities m p) :
    m = (1 <<< numCities) - 1 ∨ ∃ w, get2 dp m p = some w ∧ w ≠ -1 := by
  induction h with
  | root => exact hroot
  | @step m p c _ hc hbit ih =>
    rcases ih with hfull | ⟨w, hw, hne⟩
    · rw [hfull, full_testBit] at hbit
      simp [hc] at hbit
    · exact hcl m p w hw hne c hc hbit

theorem loop_stores_reach {dist : Matrix} {numCities mask pos : Nat}
    {cities : List Nat} {result : Int} {dp : Matrix} {log : List Event}
    {result' : Int} {dp' : Matrix} {log' : List Event}
    (h : LoopRun dist (fun m p _ _ _ l => Reach numCities m p →
      ∀ m' p' old new, Event.store m' p' old new ∈ l →
        Reach numCities m' p' ∧ m' ≠ (1 <<< numCities) - 1) mask pos
      cities result dp log result' dp' log')
    (hc : ∀ c ∈ cities, c < numCities) (hreach : Reach numCities mask pos) :
    ∀ m' p' old new, Event.store m' p' old new ∈ log' →
      Event.store m' p' old new ∈ log ∨
        (Reach numCities m' p' ∧ m' ≠ (1 <<< numCities) - 1) := by
  induction h with
  | done result dp log => exact fun _ _ _ _ h => Or.inl h
  | skip city rest result dp log result' dp' log' _ _ ih =>
    exact ih (fun c h => hc c (List.mem_cons_of_mem _ h))
  | visit city rest result dp log d r dp1 log1 result' dp' log' hbit _ hcall _ ih =>
    intro m' p' old new hmem
    have hcity : city < numCities := hc city (List.mem_cons_self _ _)
    have hclear : mask.testBit city = false := and_shift_eq_zero.1 hbit
    rcases ih (fun c h => hc c (List.mem_cons_of_mem _ h)) m' p' old new hmem with hmem | h
    · simp only [List.mem_append, List.mem_cons, List.mem_singleton, List.mem_nil_iff,
        or_false] at hmem
      rcases hmem with (hmem | hmem | hmem) | hmem
      · exact Or.inl hmem
      · cases hmem
      · exact Or.inr (hcall (Reach.step hreach hcity hclear) m' p' old new hmem)
      · cases hmem
    · exact Or.inr h

theorem tsp_stores_reach {dist : Matrix} {numCities : Nat} :
    ∀ fuel mask pos dp v dp' log,
      tsp fuel mask pos dist dp numCities = .ok (v, dp', log) → Reach numCities mask pos →
      ∀ m' p' old new, Event.store m' p' old new ∈ log →
        Reach numCities m' p' ∧ m' ≠ (1 <<< numCities) - 1 := by
  apply tsp_ind (fun m p _ _ _ l => Reach numCities m p →
      ∀ m' p' old new, Event.store m' p' old new ∈ l →
        Reach numCities m' p' ∧ m' ≠ (1 <<< numCities) - 1)
  · intro mask pos dp d _ _ _ m' p' old new h
    cases h
  · intro mask pos dp v _ _ _ _ m' p' old new h
    cases h
  · intro mask pos dp result dp1 log old dp2 hfull _ hloop _ _ hreach m' p' old' new hmem
    simp only [List.mem_append, List.mem_singleton] at hmem
    rcases hmem with hmem | hmem
    · rcases loop_stores_reach (LoopRun_mono (fun _ _ _ _ _ _ h => h.2) hloop)
        (fun c hc => List.mem_range.1 hc) hreach m' p' old' new hmem with h | h
      · cases h
      · exact h
    · cases hmem
      exact ⟨hreach, hfull⟩

theorem loop_log_mono {dist : Matrix}
    {motive : Nat → Nat → Matrix → Int → Matrix → List Event → Prop} {mask pos : Nat}
    {cities : List Nat} {result : Int} {dp : Matrix} {log : List Event}
    {result' : Int} {dp' : Matrix} {log' : List Event}
    (h : LoopRun dist motive mask pos cities result dp log result' dp' log') :
    ∀ e, e ∈ log → e ∈ log' := by
  induction h with
  | done result dp log => exact fun _ h => h
  | skip city rest result dp log result' dp' log' _ _ ih => exact ih
  | visit city rest result dp log d r dp1 log1 result' dp' log' _ _ _ _ ih =>
    intro e he
    apply ih
    simp only [List.mem_append, List.mem_cons, List.mem_singleton]
    exact Or.inl (Or.inl he)

/-- An entry that a run changed was assigned by a store of the run. -/
theorem loop_changed_stored {dist : Matrix} {mask pos : Nat}
    {cities : List Nat} {result : Int} {dp : Matrix} {log : List Event}
    {result' : Int} {dp' : Matrix} {log' : List Event}
    (h : LoopRun dist (fun _ _ t _ t' l => ∀ i j w, get2 t' i j = some w →
      get2 t i j = some w ∨ ∃ old, Event.store i j old w ∈ l) mask pos
      cities result dp log result' dp' log') :
    ∀ i j w, get2 dp' i j = some w →
      get2 dp i j = some w ∨ ∃ old, Event.store i j old w ∈ log' := by
  induction h with
  | done result dp log => exact fun _ _ _ h => Or.inl h
  | skip city rest result dp log result' dp' log' _ _ ih => exact ih
  | visit city rest result dp log d r dp1 log1 result' dp' log' _ _ hcall hrest ih =>
    intro i j w hw
    rcases ih i j w hw with h | h
    · rcases hcall i j w h with h' | ⟨old, hold⟩
      · exact Or.inl h'
      · refine Or.inr ⟨old, loop_log_mono hrest _ ?_⟩
        simp only [List.mem_append, List.mem_cons, List.mem_singleton]
        exact Or.inl (Or.inr (Or.inr hold))
    · exact Or.inr h

theorem tsp_changed_stored {dist : Matrix} {numCities : Nat} :
    ∀ fuel mask pos dp v dp' log,
      tsp fuel mask pos dist dp numCities = .ok (v, dp', log) →
      ∀ i j w, get2 dp' i j = some w →
        get2 dp i j = some w ∨ ∃ old, Event.store i j old w ∈ log := by
  apply tsp_ind (fun _ _ t _ t' l => ∀ i j w, get2 t' i j = some w →
      get2 t i j = some w ∨ ∃ old, Event.store i j old w ∈ l)
  · intro mask pos dp d _ _ i j w h
    exact Or.inl h
  · intro mask pos dp v _ _ _ i j w h
    exact Or.inl h
  · intro mask pos dp result dp1 log old dp2 _ _ hloop _ hset i j w hw
    rw [get2_set2 hset] at hw
    by_cases h : i = mask ∧ j = pos
    · rw [if_pos h] at hw
      obtain ⟨rfl, rfl⟩ := h
      cases hw
      exact Or.inr ⟨old, by simp⟩
    · rw [if_neg h] at hw
      rcases loop_changed_stored (LoopRun_mono (fun _ _ _ _ _ _ h => h.2) hloop) i j w hw
        with h' | ⟨old', hold'⟩
      · exact Or.inl h'
      · exact Or.inr ⟨old', by simp [hold']⟩

/-- C2. Memo reuse: for `2 ≤ N ≤ 25` and an `N × N` matrix of non-negative
weights whose sums of `N` entries stay below `INF`, let `T` be the table left
by `tsp(1, 0, dist, ., N)` on an all `-1` table.  For every choice `clear` of
entries, the call `tsp(1, 0, dist, dp, N)` on `T` with the chosen entries reset
to `-1` returns the same cost as the fresh call, and every value it stores at
some `(mask, pos)` is the value that the fresh call stored there (it is
`T[mask][pos]`, assigned by a store of the fresh run). -/
theorem tsp_memo_reuse (numCities : Nat) (dist : Matrix)
    (hN : 2 ≤ numCities) (_hN25 : numCities ≤ 25)
    (hshape : Shaped dist numCities numCities) (hnn : NonNeg dist numCities)
    (hsum : SumsBelowINF dist numCities) (clear : Nat → Nat → Bool)
    (fuel : Nat) (hfuel : 2 ^ numCities - 1 ≤ fuel) :
    ∃ v T log, tsp fuel 1 0 dist (freshTable numCities) numCities = .ok (v, T, log) ∧
      ∃ T' log', tsp fuel 1 0 dist (resetEntries clear T) numCities = .ok (v, T', log') ∧
        ∀ m p old new, Event.store m p old new ∈ log' →
          get2 T m p = some new ∧ Event.store m p (-1) new ∈ log := by
  have h1 : 1 < 2 ^ numCities := Nat.one_lt_two_pow (by omega)
  have h2 : 2 < 2 ^ numCities := by
    calc 2 = 2 ^ 1 := rfl
      _ < 2 ^ numCities := Nat.pow_lt_pow_right (by norm_num) (by omega)
  have hnotfull : (1 : Nat) ≠ (1 <<< numCities) - 1 := by
    rw [Nat.one_shiftLeft]; omega
  obtain ⟨v, T, log, hrun⟩ := tsp_total hshape fuel 1 0 (freshTable numCities)
    (freshTable_shaped numCities) h1 (by omega) hfuel
  obtain ⟨hopt, hconsT, _, _, hclosed⟩ := tsp_value hnn hsum fuel 1 0 _ v T log hrun h1
    (by omega) (by decide) (freshTable_consistent dist numCities)
  obtain ⟨hclT, hrootT⟩ := hclosed (freshTable_closed numCities)
  have hshT : Shaped T (1 <<< numCities) numCities :=
    (tsp_frame fuel 1 0 _ v T log hrun).1 _ _ (freshTable_shaped numCities)
  have hstT := (tsp_frame fuel 1 0 _ v T log hrun).2.2.2
  obtain ⟨v', T', log', hrun'⟩ := tsp_total hshape fuel 1 0 (resetEntries clear T)
    (resetEntries_shaped hshT) h1 (by omega) hfuel
  obtain ⟨hopt', _, hstores', _, _⟩ := tsp_value hnn hsum fuel 1 0 _ v' T' log' hrun' h1
    (by omega) (by decide) (resetEntries_consistent hconsT)
  have hv : v' = v := isOpt_unique hopt' hopt
  subst hv
  refine ⟨v', T, log, hrun, T', log', hrun', ?_⟩
  intro m p old new hmem
  obtain ⟨hreach, hmfull⟩ := tsp_stores_reach fuel 1 0 _ v' T' log' hrun' Reach.root
    m p old new hmem
  rcases reach_filled hclT (Or.inr (hrootT hnotfull)) hreach with hfull | ⟨w, hw, hne⟩
  · exact absurd hfull hmfull
  · have hwnew : w = new := isOpt_unique (hconsT m p w hw hne) (hstores' m p old new hmem)
    subst hwnew
    refine ⟨hw, ?_⟩
    rcases tsp_changed_stored fuel 1 0 _ v' T log hrun m p w hw with h | ⟨old0, hold0⟩
    · exact absurd (get2_freshTable h) hne
    · have := hstT m p old0 w hold0
      subst this
      exact hold0

/-- Witness for C2: three cities, the entries of the rows 1 and 5 reset. -/
theorem tsp_memo_reuse_witness :
    (Shaped [[0, 5, 3], [7, 0, 1], [2, 2, 0]] 3 3 ∧ NonNeg [[0, 5, 3], [7, 0, 1], [2, 2, 0]] 3 ∧
      SumsBelowINF [[0, 5, 3], [7, 0, 1], [2, 2, 0]] 3) ∧
    ∃ v T log, tsp 7 1 0 [[0, 5, 3], [7, 0, 1], [2, 2, 0]] (freshTable 3) 3 = .ok (v, T, log) ∧
      ∃ T' log', tsp 7 1 0 [[0, 5, 3], [7, 0, 1], [2, 2, 0]]
          (resetEntries (fun m _ => m == 1 || m == 5) T) 3 = .ok (v, T', log') ∧
        ∀ m p old new, Event.store m p old new ∈ log' →
          get2 T m p = some new ∧ Event.store m p (-1) new ∈ log := by
  have hshape : Shaped [[0, 5, 3], [7, 0, 1], [2, 2, 0]] 3 3 := ⟨rfl, by decide⟩
  have hnn : NonNeg [[0, 5, 3], [7, 0, 1], [2, 2, 0]] 3 := by
    intro i j hi hj; interval_cases i <;> interval_cases j <;> decide
  have hsum : SumsBelowINF [[0, 5, 3], [7, 0, 1], [2, 2, 0]] 3 :=
    sumsBelowINF_of_bound 7
      (by intro i j hi hj; interval_cases i <;> interval_cases j <;> decide) (by decide)
  exact ⟨⟨hshape, hnn, hsum⟩,
    tsp_memo_reuse 3 [[0, 5, 3], [7, 0, 1], [2, 2, 0]] (by decide) (by decide)
      hshape hnn hsum (fun m _ => m == 1 || m == 5) 7 (by decide)⟩

/-! ## Reading back what was written -/

theorem digitChar_spec {d : Nat} (h : d < 10) :
    (digitChar d).isDigit = true ∧ (digitChar d).toNat - 48 = d ∧
      isSpace (digitChar d) = false ∧ digitChar d ≠ '-' ∧ digitChar d ≠ '+' := by
  interval_cases d <;> decide

theorem readDigits_natDigitsAux (rest : List Char) :
    ∀ fuel n acc, n < fuel →
      readDigits (natDigitsAux fuel n acc ++ rest) 0 = readDigits (acc ++ rest) n := by
  intro fuel
  induction fuel with
  | zero => intro n acc h; omega
  | succ fuel ih =>
    intro n acc h
    rw [natDigitsAux]
    split
    · rename_i h10
      obtain ⟨h1, h2, _⟩ := digitChar_spec h10
      simp [readDigits, h1, h2]
    · rename_i h10
      have hmod : n % 10 < 10 := Nat.mod_lt _ (by norm_num)
      obtain ⟨h1, h2, _⟩ := digitChar_spec hmod
      rw [ih (n / 10) _ (by omega)]
      simp only [List.cons_append, readDigits, h1, if_true, h2]
      congr 1
      omega

theorem natDigitsAux_head :
    ∀ fuel n acc, n < fuel → ∃ d tl, natDigitsAux fuel n acc = d :: tl ∧ d.isDigit = true ∧
      isSpace d = false ∧ d ≠ '-' ∧ d ≠ '+' := by
  intro fuel
  induction fuel with
  | zero => intro n acc h; omega
  | succ fuel ih =>
    intro n acc h
    rw [natDigitsAux]
    split
    · rename_i h10
      obtain ⟨h1, _, h3, h4, h5⟩ := digitChar_spec h10
      exact ⟨_, _, rfl, h1, h3, h4, h5⟩
    · exact ih (n / 10) _ (by omega)

theorem skipSpaces_append {ws : List Char} (hws : ∀ c ∈ ws, isSpace c = true)
    {x : Char} (hx : isSpace x = false) (rest : List Char) :
    skipSpaces (ws ++ x :: rest) = x :: rest := by
  induction ws with
  | nil => simp [skipSpaces, hx]
  | cons w ws ih =>
    have hw := hws w (List.mem_cons_self _ _)
    simp only [List.cons_append, skipSpaces, hw, if_true]
    exact ih (fun c hc => hws c (List.mem_cons_of_mem _ hc))

/-- Reading back a written `int`: after any blanks, the text of `v` followed
by a blank or a newline is read as `v`, and the stream stops in front of that
character. -/
theorem readInt_showInt (ws : List Char) (hws : ∀ c ∈ ws, isSpace c = true) {v : Int}
    (hv : IsInt32 v) {c : Char} (hc : c.isDigit = false) (rest : List Char) :
    readInt ⟨ws ++ showInt v ++ c :: rest, false⟩ = ⟨some v, ⟨c :: rest, false⟩⟩ := by
  obtain ⟨d, tl, hd, hdig, hsp, hminus, hplus⟩ :=
    natDigitsAux_head (v.natAbs + 1) v.natAbs [] (Nat.lt_succ_self _)
  have hread := readDigits_natDigitsAux (c :: rest) (v.natAbs + 1) v.natAbs []
    (Nat.lt_succ_self _)
  have hstop : readDigits (c :: rest) v.natAbs = (v.natAbs, c :: rest) := by
    simp [readDigits, hc]
  rw [List.nil_append, hstop] at hread
  obtain ⟨hlo, hhi⟩ := hv
  unfold showInt
  by_cases hneg : v < 0
  · rw [if_pos hneg]
    have hskip : skipSpaces (ws ++ ('-' :: natDigitsAux (v.natAbs + 1) v.natAbs []) ++ c :: rest)
        = '-' :: (natDigitsAux (v.natAbs + 1) v.natAbs [] ++ c :: rest) := by
      rw [List.append_assoc, List.cons_append]
      exact skipSpaces_append hws (by decide) _
    have habs : -(v.natAbs : Int) = v := by omega
    unfold readInt
    simp only [Bool.false_eq_true, if_false]
    rw [hskip]
    simp only [true_or, if_true]
    rw [hd] at hread ⊢
    simp only [List.cons_append] at hread
    simp only [List.cons_append, hdig, if_true, hread, habs]
    rw [if_neg (by omega), if_neg (by omega)]
  · rw [if_neg hneg]
    have hskip : skipSpaces (ws ++ natDigitsAux (v.natAbs + 1) v.natAbs [] ++ c :: rest)
        = d :: (tl ++ c :: rest) := by
      rw [hd, List.append_assoc, List.cons_append]
      exact skipSpaces_append hws hsp _
    have habs : (v.natAbs : Int) = v := by omega
    unfold readInt
    simp only [Bool.false_eq_true, if_false]
    rw [hskip]
    simp only [hminus, hplus, or_self, if_false]
    rw [hd] at hread
    simp only [List.cons_append] at hread
    simp only [hdig, if_true, hread, habs]
    rw [if_neg (by omega), if_neg (by omega)]

theorem loadRow_save (f : Nat → Int) {rows cols i : Nat} (hi : i < rows) (tail : List Char) :
    ∀ (js : List Nat) (ws : List Char) (M : Matrix), (∀ j ∈ js, j < cols ∧ IsInt32 (f j)) →
      (∀ c ∈ ws, isSpace c = true) → Shaped M rows cols →
      ∃ ws' M', (∀ c ∈ ws', isSpace c = true) ∧
        loadRow i js ⟨ws ++ saveRow (js.map f) ++ tail, false⟩ M
          = (true, ⟨ws' ++ tail, false⟩, M') ∧
        Shaped M' rows cols ∧
        ∀ i' j', get2 M' i' j' = if i' = i ∧ j' ∈ js then some (f j') else get2 M i' j' := by
  intro js
  induction js with
  | nil =>
    intro ws M _ hws hM
    refine ⟨ws ++ [newline], M, ?_, ?_, hM, ?_⟩
    · intro c hc
      rcases List.mem_append.1 hc with h | h
      · exact hws c h
      · rw [List.mem_singleton.1 h]; decide
    · simp [loadRow, saveRow]
    · intro i' j'; simp
  | cons j js ih =>
    intro ws M hjs hws hM
    obtain ⟨hj, hfj⟩ := hjs j (List.mem_cons_self _ _)
    obtain ⟨old, hold⟩ := get2_of_shaped hM hi hj
    obtain ⟨M1, hM1⟩ := set2_of_get2 hold (f j)
    have hread := readInt_showInt ws hws hfj (by decide : (' ' : Char).isDigit = false)
      (saveRow (js.map f) ++ tail)
    have hbuf : ws ++ saveRow ((j :: js).map f) ++ tail
        = ws ++ showInt (f j) ++ ' ' :: (saveRow (js.map f) ++ tail) := by
      simp [saveRow, List.append_assoc]
    obtain ⟨ws', M', hws', hrun, hsh, hget⟩ := ih [' '] M1
      (fun x hx => hjs x (List.mem_cons_of_mem _ hx))
      (by intro c hc; rw [List.mem_singleton.1 hc]; decide) (set2_shaped hM1 hM)
    refine ⟨ws', M', hws', ?_, hsh, ?_⟩
    · rw [loadRow, hbuf, hread]
      simp only [hM1, Option.getD_some, Bool.false_eq_true, if_false]
      simpa using hrun
    · intro i' j'
      rw [hget, get2_set2 hM1]
      by_cases h1 : i' = i
      · by_cases h2 : j' = j
        · subst h1 h2; simp
        · by_cases h3 : j' ∈ js <;> simp [h1, h2, h3]
      · simp [h1]

theorem loadRows_save (g : Nat → Nat → Int) (rows n : Nat) (tail : List Char) :
    ∀ (is : List Nat) (ws : List Char) (M : Matrix),
      (∀ i ∈ is, i < rows ∧ ∀ j, j < n → IsInt32 (g i j)) →
      (∀ c ∈ ws, isSpace c = true) → Shaped M rows n →
      ∃ M', loadRows n is
          ⟨ws ++ saveRows (is.map (fun i => (List.range n).map (g i))) ++ tail, false⟩ M
          = (true, M') ∧
        Shaped M' rows n ∧
        ∀ i' j', get2 M' i' j' =
          if i' ∈ is ∧ j' < n then some (g i' j') else get2 M i' j' := by
  intro is
  induction is with
  | nil =>
    intro ws M _ _ hM
    exact ⟨M, rfl, hM, by intro i' j'; simp⟩
  | cons i is ih =>
    intro ws M his hws hM
    obtain ⟨hi, hgi⟩ := his i (List.mem_cons_self _ _)
    obtain ⟨ws1, M1, hws1, hrow, hsh1, hget1⟩ := loadRow_save (g i) hi
      (saveRows (is.map (fun i => (List.range n).map (g i))) ++ tail) (List.range n) ws M
      (fun j hj => ⟨List.mem_range.1 hj, hgi j (List.mem_range.1 hj)⟩) hws hM
    obtain ⟨M', hrun, hsh, hget⟩ := ih ws1 M1
      (fun x hx => his x (List.mem_cons_of_mem _ hx)) hws1 hsh1
    refine ⟨M', ?_, hsh, ?_⟩
    · have hbuf : ws ++ saveRows ((i :: is).map (fun i => (List.range n).map (g i))) ++ tail
          = ws ++ saveRow ((List.range n).map (g i)) ++
            (saveRows (is.map (fun i => (List.range n).map (g i))) ++ tail) := by
        simp [saveRows, List.append_assoc]
      rw [loadRows, hbuf, hrow]
      simpa [List.append_assoc] using hrun
    · intro i' j'
      rw [hget, hget1]
      by_cases h1 : i' = i
      · by_cases h2 : j' < n
        · subst h1; simp [h2]
        · simp [h2]
      · by_cases h3 : i' ∈ is <;> simp [h1, h3]

theorem matrix_ext {A B : Matrix} {rows cols : Nat} (hA : Shaped A rows cols)
    (hB : Shaped B rows cols)
    (h : ∀ i j, i < rows → j < cols → get2 A i j = get2 B i j) : A = B := by
  apply List.ext_getElem (by rw [hA.1, hB.1])
  intro i h1 h2
  have hlenA : (A[i]).length = cols := hA.2 _ (List.getElem_mem _)
  have hlenB : (B[i]).length = cols := hB.2 _ (List.getElem_mem _)
  apply List.ext_getElem (by rw [hlenA, hlenB])
  intro j h3 h4
  have := h i j (by rw [← hA.1]; exact h1) (by rw [← hlenA]; exact h3)
  unfold get2 at this
  rw [List.getElem?_eq_getElem h1, List.getElem?_eq_getElem h2] at this
  simp only at this
  rw [List.getElem?_eq_getElem h3, List.getElem?_eq_getElem h4] at this
  exact Option.some.inj this

theorem replicate_shaped (rows cols : Nat) (v : Int) :
    Shaped (List.replicate rows (List.replicate cols v)) rows cols := by
  refine ⟨by simp, ?_⟩
  intro row hrow
  rw [List.eq_of_mem_replicate hrow]
  simp

theorem tabulate_shaped (n : Nat) (g : Nat → Nat → Int) :
    Shaped ((List.range n).map (fun i => (List.range n).map (g i))) n n := by
  refine ⟨by simp, ?_⟩
  intro row hrow
  obtain ⟨i, _, rfl⟩ := List.mem_map.1 hrow
  simp

theorem get2_tabulate {n i j : Nat} (g : Nat → Nat → Int) (hi : i < n) (hj : j < n) :
    get2 ((List.range n).map (fun i => (List.range n).map (g i))) i j = some (g i j) := by
  unfold get2
  simp [List.getElem?_map, List.getElem?_range hi, List.getElem?_range hj]

theorem matrix_eq_tabulate {m : Matrix} {n : Nat} (hm : Shaped m n n) :
    m = (List.range n).map (fun i => (List.range n).map (entry m i)) := by
  apply matrix_ext hm (tabulate_shaped n (entry m))
  intro i j hi hj
  rw [get2_tabulate (entry m) hi hj]
  obtain ⟨v, hv⟩ := get2_of_shaped hm hi hj
  rw [hv, entry_of_get2 hv]

/-- Reading back a saved matrix: for `2 ≤ N ≤ 25` and an `N × N` matrix of
32-bit integers, `loadMatrixFromFile` on the text of `saveMatrixToFile`
succeeds and yields `N` and the matrix, whatever the reference parameters
held before. -/
theorem load_save {numCities : Nat} {m : Matrix} (hN : 2 ≤ numCities) (hN25 : numCities ≤ 25)
    (hm : Shaped m numCities numCities)
    (hint : ∀ i j, i < numCities → j < numCities → IsInt32 (entry m i j))
    (matrix0 : Matrix) (numCities0 : Int) :
    loadMatrixFromFile (some (saveMatrixToFile m numCities)) matrix0 numCities0
      = ⟨true, m, numCities⟩ := by
  have hread := readInt_showInt [] (fun c hc => by cases hc)
    (v := (numCities : Int)) ⟨by omega, by omega⟩ (by decide : newline.isDigit = false)
    (saveRows m)
  rw [List.nil_append] at hread
  have htab := matrix_eq_tabulate hm
  obtain ⟨M', hrun, hsh, hget⟩ := loadRows_save (entry m) numCities numCities []
    (List.range numCities) [newline] (List.replicate numCities (List.replicate numCities 0))
    (fun i hi => ⟨List.mem_range.1 hi, fun j hj => hint i j (List.mem_range.1 hi) hj⟩)
    (by intro c hc; rw [List.mem_singleton.1 hc]; decide) (replicate_shaped _ _ _)
  rw [← htab, List.append_nil] at hrun
  have hM' : M' = m := by
    apply matrix_ext hsh hm
    intro i j hi hj
    rw [hget, if_pos ⟨List.mem_range.2 hi, hj⟩]
    obtain ⟨v, hv⟩ := get2_of_shaped hm hi hj
    rw [hv, entry_of_get2 hv]
  subst hM'
  unfold loadMatrixFromFile saveMatrixToFile
  simp only [hread, Option.getD_some, MAX_CITIES]
  rw [if_neg (by omega)]
  simp only [Int.toNat_ofNat]
  simp only [List.singleton_append] at hrun
  rw [hrun]

/-! ## Which files `loadMatrixFromFile` accepts -/

theorem readsOK_add (a b : Nat) (s : IStream) :
    readsOK (a + b) s = (readsOK a s && readsOK b (advance a s)) := by
  induction a generalizing s with
  | zero => simp [readsOK, advance]
  | succ a ih =>
    rw [Nat.succ_add]
    simp only [readsOK, advance, ih, Bool.and_assoc]

theorem loadRow_ok (i : Nat) :
    ∀ (js : List Nat) (s : IStream) (M : Matrix),
      (loadRow i js s M).1 = readsOK js.length s ∧
      ((loadRow i js s M).1 = true → (loadRow i js s M).2.1 = advance js.length s) := by
  intro js
  induction js with
  | nil => intro s M; simp [loadRow, readsOK, advance]
  | cons j js ih =>
    intro s M
    rw [loadRow]
    simp only [List.length_cons, readsOK, advance]
    cases hfail : (readInt s).stream.failed with
    | true => simp
    | false =>
      simp only [Bool.false_eq_true, if_false, Bool.not_false, Bool.true_and]
      exact ih _ _

theorem loadRows_ok (n : Nat) :
    ∀ (is : List Nat) (s : IStream) (M : Matrix),
      (loadRows n is s M).1 = readsOK (is.length * n) s := by
  intro is
  induction is with
  | nil => intro s M; simp [loadRows, readsOK]
  | cons i is ih =>
    intro s M
    obtain ⟨h1, h2⟩ := loadRow_ok i (List.range n) s M
    rw [List.length_range] at h1 h2
    rw [loadRows, List.length_cons, Nat.succ_mul, Nat.add_comm, readsOK_add]
    cases hrow : loadRow i (List.range n) s M with
    | mk ok rest =>
      obtain ⟨s1, M1⟩ := rest
      rw [hrow] at h1 h2
      simp only at h1 h2
      cases ok with
      | false => simp [← h1]
      | true =>
        simp only [← h1, Bool.true_and]
        rw [← h2 rfl]
        exact ih _ _

theorem load_ok_iff (text : List Char) (matrix : Matrix) (numCities : Int) :
    (loadMatrixFromFile (some text) matrix numCities).ok = true ↔
      (2 ≤ declaredCount text numCities ∧ declaredCount text numCities ≤ 25 ∧
        readsOK ((declaredCount text numCities).toNat * (declaredCount text numCities).toNat)
          (afterCount text) = true) := by
  unfold loadMatrixFromFile declaredCount afterCount
  simp only [MAX_CITIES]
  split
  · rename_i h
    simp only [Bool.false_eq_true, false_iff]
    omega
  · rename_i h
    simp only [loadRows_ok, List.length_range]
    constructor
    · intro hok; exact ⟨by omega, by omega, hok⟩
    · intro hok; exact hok.2.2

/-- C4. For every input text, `loadMatrixFromFile` returns false whenever the
city count read by line 71 is below 2 or above `MAX_CITIES = 25`, or fewer than
`N × N` integers can be read after it (also when the file cannot be opened);
`massCalculate` then skips that file without calling `tsp` on it. -/
theorem loadMatrixFromFile_rejects (file : Option (List Char)) (matrix : Matrix)
    (numCities : Int)
    (h : file = none ∨ ∃ text, file = some text ∧
      (declaredCount text numCities < 2 ∨ declaredCount text numCities > 25 ∨
        readsOK ((declaredCount text numCities).toNat * (declaredCount text numCities).toNat)
          (afterCount text) = false)) :
    (loadMatrixFromFile file matrix numCities).ok = false ∧
    massCalculateFile file numCities = none ∧
    ∀ (numFiles : Int) (files : Nat → Option (List Char)) (i : Nat),
      i < numFiles.toNat → files (1 + i) = file →
      (massCalculate numFiles files numCities)[i]? = some none := by
  have hload : ∀ matrix0, (loadMatrixFromFile file matrix0 numCities).ok = false := by
    intro matrix0
    rcases h with rfl | ⟨text, rfl, h⟩
    · rfl
    · cases hok : (loadMatrixFromFile (some text) matrix0 numCities).ok with
      | false => rfl
      | true =>
        obtain ⟨h1, h2, h3⟩ := (load_ok_iff text matrix0 numCities).1 hok
        rcases h with h | h | h
        · omega
        · omega
        · rw [h3] at h; cases h
  have hskip : massCalculateFile file numCities = none := by
    unfold massCalculateFile
    simp only [hload [], Bool.false_eq_true, if_false]
  refine ⟨hload matrix, hskip, ?_⟩
  intro numFiles files i hi hfile
  unfold massCalculate
  rw [List.getElem?_map, List.getElem?_range' _ _ hi]
  simp only [Nat.one_mul, Option.map_some', hfile, hskip]

/-- Witness for C4: a file that declares 30 cities. -/
theorem loadMatrixFromFile_rejects_witness :
    declaredCount ['3', '0', newline, '0', ' ', '1', newline, '1', ' ', '0'] 0 = 30 ∧
    (loadMatrixFromFile (some ['3', '0', newline, '0', ' ', '1', newline, '1', ' ', '0']) [] 0).ok
      = false ∧
    massCalculateFile (some ['3', '0', newline, '0', ' ', '1', newline, '1', ' ', '0']) 0 = none ∧
    ∀ (numFiles : Int) (files : Nat → Option (List Char)) (i : Nat),
      i < numFiles.toNat →
      files (1 + i) = some ['3', '0', newline, '0', ' ', '1', newline, '1', ' ', '0'] →
      (massCalculate numFiles files 0)[i]? = some none :=
  ⟨by decide,
    loadMatrixFromFile_rejects
      (some ['3', '0', newline, '0', ' ', '1', newline, '1', ' ', '0']) [] 0
      (Or.inr ⟨_, rfl, Or.inr (Or.inl (by decide))⟩)⟩

/-- C5. Persistence round trip: for `2 ≤ N ≤ 25` and an `N × N` matrix `m` of
non-negative `int` weights with zero diagonal, `loadMatrixFromFile` applied to
the text written by `saveMatrixToFile(m, N, f)` returns true, sets `numCities`
to `N`, and yields a matrix equal to `m`. -/
theorem load_save_round_trip (numCities : Nat) (m : Matrix)
    (hN : 2 ≤ numCities) (hN25 : numCities ≤ 25)
    (hshape : Shaped m numCities numCities) (hnn : NonNeg m numCities)
    (_hdiag : ZeroDiag m numCities)
    (hint : ∀ i j, i < numCities → j < numCities → entry m i j ≤ 2147483647)
    (matrix0 : Matrix) (numCities0 : Int) :
    loadMatrixFromFile (some (saveMatrixToFile m numCities)) matrix0 numCities0
      = ⟨true, m, numCities⟩ :=
  load_save hN hN25 hshape
    (fun i j hi hj => ⟨by have := hnn i j hi hj; omega, hint i j hi hj⟩) matrix0 numCities0

/-- Witness for C5. -/
theorem load_save_round_trip_witness :
    (Shaped [[0, 5, 3], [7, 0, 1], [2, 2, 0]] 3 3 ∧ NonNeg [[0, 5, 3], [7, 0, 1], [2, 2, 0]] 3 ∧
      ZeroDiag [[0, 5, 3], [7, 0, 1], [2, 2, 0]] 3) ∧
    loadMatrixFromFile (some (saveMatrixToFile [[0, 5, 3], [7, 0, 1], [2, 2, 0]] (3 : Nat)))
      [[9]] 7 = ⟨true, [[0, 5, 3], [7, 0, 1], [2, 2, 0]], (3 : Nat)⟩ := by
  have hshape : Shaped [[0, 5, 3], [7, 0, 1], [2, 2, 0]] 3 3 := ⟨rfl, by decide⟩
  have hnn : NonNeg [[0, 5, 3], [7, 0, 1], [2, 2, 0]] 3 := by
    intro i j hi hj; interval_cases i <;> interval_cases j <;> decide
  have hdiag : ZeroDiag [[0, 5, 3], [7, 0, 1], [2, 2, 0]] 3 := by
    intro i hi; interval_cases i <;> rfl
  exact ⟨⟨hshape, hnn, hdiag⟩,
    load_save_round_trip 3 [[0, 5, 3], [7, 0, 1], [2, 2, 0]] (by decide) (by decide)
      hshape hnn hdiag
      (by intro i j hi hj; interval_cases i <;> interval_cases j <;> decide)
      [[9]] 7⟩

/-- C6, counterexample. The text `2 / 0 -5 / 7 3` holds a negative weight and
a non-zero diagonal entry; `loadMatrixFromFile` returns true on it with that
matrix, and `massCalculate` calls `tsp` on the matrix. -/
theorem loadMatrixFromFile_accepts_negative_weight :
    loadMatrixFromFile
      (some ['2', newline, '0', ' ', '-', '5', newline, '7', ' ', '3', newline]) [] 0
      = ⟨true, [[0, -5], [7, 3]], 2⟩ ∧
    entry [[0, -5], [7, 3]] 0 1 < 0 ∧ entry [[0, -5], [7, 3]] 1 1 ≠ 0 ∧
    massCalculateFile
      (some ['2', newline, '0', ' ', '-', '5', newline, '7', ' ', '3', newline]) 0
      = some ([[0, -5], [7, 3]], 2, tsp 4 1 0 [[0, -5], [7, 3]] (freshTable 2) 2) := by
  refine ⟨by decide, by decide, by decide, ?_⟩
  rfl

/-- C6, amended. `loadMatrixFromFile` checks the city count and the number of
integers only: for `2 ≤ N ≤ 25` and every `N × N` matrix `m` of 32-bit
integers, negative weights and non-zero diagonal entries included, it returns
true on the text written by `saveMatrixToFile` with the matrix `m`, and
`massCalculate` calls `tsp` on `m`. -/
theorem loadMatrixFromFile_accepts_any_weights (numCities : Nat) (m : Matrix)
    (hN : 2 ≤ numCities) (hN25 : numCities ≤ 25)
    (hshape : Shaped m numCities numCities)
    (hint : ∀ i j, i < numCities → j < numCities → IsInt32 (entry m i j))
    (matrix0 : Matrix) (numCities0 : Int) :
    loadMatrixFromFile (some (saveMatrixToFile m numCities)) matrix0 numCities0
      = ⟨true, m, numCities⟩ ∧
    massCalculateFile (some (saveMatrixToFile m numCities)) numCities0
      = some (m, (numCities : Int),
          tsp (2 ^ numCities) 1 0 m (freshTable numCities) numCities) := by
  refine ⟨load_save hN hN25 hshape hint matrix0 numCities0, ?_⟩
  unfold massCalculateFile
  rw [load_save hN hN25 hshape hint [] numCities0]
  simp

/-- Witness for the amended C6: a matrix with a negative weight and a non-zero
diagonal entry. -/
theorem loadMatrixFromFile_accepts_any_weights_witness :
    (Shaped [[0, -5], [7, 3]] 2 2 ∧ entry [[0, -5], [7, 3]] 0 1 < 0 ∧
      entry [[0, -5], [7, 3]] 1 1 ≠ 0) ∧
    loadMatrixFromFile (some (saveMatrixToFile [[0, -5], [7, 3]] (2 : Nat))) [] 0
      = ⟨true, [[0, -5], [7, 3]], (2 : Nat)⟩ ∧
    massCalculateFile (some (saveMatrixToFile [[0, -5], [7, 3]] (2 : Nat))) 0
      = some ([[0, -5], [7, 3]], ((2 : Nat) : Int),
          tsp (2 ^ 2) 1 0 [[0, -5], [7, 3]] (freshTable 2) 2) :=
  ⟨⟨⟨rfl, by decide⟩, by decide, by decide⟩,
    loadMatrixFromFile_accepts_any_weights 2 [[0, -5], [7, 3]] (by decide) (by decide)
      ⟨rfl, by decide⟩
      (by
        intro i j hi hj
        interval_cases i <;> interval_cases j <;> exact ⟨by decide, by decide⟩)
      [] 0⟩

/-! ## The session of the menu loop -/

/-- C10, evaluated on the code. After a 2 × 2 matrix is loaded (option 2), a
city count that option 1 rejects (`1`) stays in `numCities`; option 4 then
calls `tsp(1, 0, dist, dp, 1)` on the 2 × 2 matrix and reports the cost `0`.
With the count `3` and zero matrices to generate, option 4 calls `tsp` with
`numCities = 3` on the 2 × 2 matrix, and the run reads outside `dist`. -/
theorem menu_solve_with_stale_count :
    main [Command.load (some ['2', newline, '0', ' ', '5', newline, '7', ' ', '0', newline]),
        Command.generate 1 0 (fun _ _ _ => 0), Command.solve]
      = (⟨1, [[0, 5], [7, 0]]⟩, [([[0, 5], [7, 0]], 1)]) ∧
    ¬ ((2 : Int) ≤ 1) ∧ ¬ Shaped [[0, 5], [7, 0]] 1 1 ∧
    (tsp (2 ^ 1) 1 0 [[0, 5], [7, 0]] (freshTable 1) 1).map (fun r => r.1) = .ok 0 ∧
    main [Command.load (some ['2', newline, '0', ' ', '5', newline, '7', ' ', '0', newline]),
        Command.generate 3 0 (fun _ _ _ => 0), Command.solve]
      = (⟨3, [[0, 5], [7, 0]]⟩, [([[0, 5], [7, 0]], 3)]) ∧
    ¬ Shaped [[0, 5], [7, 0]] 3 3 ∧
    tsp (2 ^ 3) 1 0 [[0, 5], [7, 0]] (freshTable 3) 3 = .error .outOfBounds := by
  refine ⟨by decide, by decide, ?_, rfl, by decide, ?_, rfl⟩
  · intro h; exact absurd h.1 (by decide)
  · intro h; exact absurd h.1 (by decide)

end TSP
